import Mathlib

/-!
Verification of the qiu-pay payment-gateway core against its specification.

The development shallowly embeds the relevant parts of the Python source:

* `app/services/order_service.py`   — amount adjustment, order creation, expiry sweep
* `app/services/balance_checker.py` — balance-delta reconciliation (subset-sum DFS)
* `app/services/payment_poller.py`  — poller timeout path
* `app/services/callback_service.py`— merchant notification and return-url building
* `app/routes/admin.py`             — admin order cancel

Python `Decimal` values are embedded as `ℚ` (decimal arithmetic is exact rational
arithmetic; `Decimal.to_integral_value` rounds with the default context rounding
ROUND_HALF_EVEN, embedded as `roundHalfEven`).  Database rows become Lean
structures, the database state a structure of lists, and every service operation
a pure function from state (plus the oracle inputs standing for wall-clock time,
wallet-balance query results and merchant HTTP responses) to state.
-/

/-- Rounding of a rational to an integer the way Python's
`Decimal.to_integral_value()` rounds under the default context: to the nearest
integer, ties to the even neighbour (ROUND_HALF_EVEN). -/
def roundHalfEven (q : ℚ) : ℤ :=
  let f : ℤ := q.num / q.den
  let r : ℚ := q - f
  if r < 1/2 then f
  else if 1/2 < r then f + 1
  else if f % 2 = 0 then f else f + 1

/-- `roundHalfEven` written with `⌊·⌋` (the division in the definition is the
floor of the rational, kept in kernel-computable form). -/
theorem roundHalfEven_eq (q : ℚ) :
    roundHalfEven q =
      (if q - ⌊q⌋ < 1/2 then ⌊q⌋
      else if 1/2 < q - ⌊q⌋ then ⌊q⌋ + 1
      else if ⌊q⌋ % 2 = 0 then ⌊q⌋ else ⌊q⌋ + 1) := by
  rw [roundHalfEven, Rat.floor_def]

/-- Modelled from the spec: the spec's §4.3 step 5 claims conversion to cents is
"round-half-up on multiply-by-100"; this is that rounding (ties away from the
floor), used only to compare against what the code actually does. -/
def roundHalfUp (q : ℚ) : ℤ := ⌊q + 1/2⌋

/-- The code's conversion of a `Decimal` amount to integer cents:
`int((x * 100).to_integral_value())` in `BalanceChecker.check_payment`. -/
def toCents (q : ℚ) : ℤ := roundHalfEven (q * 100)

/-- Python `Decimal.quantize(Decimal("0.01"))` under the default context:
round to two decimal places, ties to even. -/
def quantize2 (q : ℚ) : ℚ := (roundHalfEven (q * 100) : ℚ) / 100

/-- A rational that is exactly representable with two decimal places. -/
def TwoDp (q : ℚ) : Prop := ∃ z : ℤ, q = (z : ℚ) / 100

theorem roundHalfEven_intCast (z : ℤ) : roundHalfEven (z : ℚ) = z := by
  rw [roundHalfEven_eq]
  simp

theorem toCents_twoDp (z : ℤ) : toCents ((z : ℚ) / 100) = z := by
  have h : ((z : ℚ) / 100) * 100 = (z : ℚ) := by ring
  simp [toCents, h, roundHalfEven_intCast]

theorem quantize2_twoDp (q : ℚ) : TwoDp (quantize2 q) := ⟨roundHalfEven (q * 100), rfl⟩

theorem quantize2_eq_self {q : ℚ} (h : TwoDp q) : quantize2 q = q := by
  obtain ⟨z, rfl⟩ := h
  have h1 : ((z : ℚ) / 100) * 100 = (z : ℚ) := by ring
  rw [quantize2, h1, roundHalfEven_intCast]

theorem TwoDp.add_cent {q : ℚ} (h : TwoDp q) (i : ℕ) : TwoDp (q + (i : ℚ) / 100) := by
  obtain ⟨z, rfl⟩ := h
  exact ⟨z + i, by push_cast; ring⟩

/-! ## Data model (`app/database.py` tables, as used by the services) -/

/-- A row of the `orders` table (the columns the core services read or write).
`status`: 0 PENDING, 1 PAID, 2 EXPIRED.  `createdAt`/`paidAt`/`expiredAt` are
timestamps embedded as natural numbers (seconds). -/
structure OrderRec where
  oid : ℕ
  tradeNo : String
  outTradeNo : String
  merchantId : ℕ
  credentialId : Option ℕ
  otype : String
  oname : String
  originalMoney : ℚ
  money : ℚ
  adjustAmount : ℚ
  status : ℕ
  notifyUrl : Option String
  returnUrl : Option String
  param : Option String
  baseBalance : ℚ
  confirmBalance : Option ℚ
  callbackStatus : ℕ
  callbackAttempts : ℕ
  createdAt : ℕ
  paidAt : Option ℕ
  expiredAt : Option ℕ
  deriving Repr, DecidableEq

instance : Inhabited OrderRec :=
  ⟨⟨0, "", "", 0, none, "", "", 0, 0, 0, 0, none, none, none, 0, none, 0, 0, 0, none, none⟩⟩

/-- A row of the `merchants` table (the columns the core services use). -/
structure MerchantRec where
  mid : ℕ
  mkey : String
  active : ℕ
  money : ℚ
  deriving Repr, DecidableEq

/-- The structured content of a `balance_logs.match_result` message written by
`BalanceChecker` (the code writes a formatted string; the constructor records
which message was written). -/
inductive MatchResult where
  | queryFailure
  | noPending
  | noSameCredPending
  | noPositiveChange
  | matchSuccess
  | noMatch
  deriving Repr, DecidableEq

/-- A row of the `balance_logs` table. -/
structure BalanceLogRec where
  availableAmount : ℚ
  matchResult : MatchResult
  matchedTradeNos : Option (List String)
  deriving Repr, DecidableEq

/-- A row of the `callback_logs` table. -/
structure CallbackLogRec where
  orderId : ℕ
  attempt : ℕ
  url : String
  httpStatus : Option ℕ
  responseBody : Option String
  deriving Repr, DecidableEq

/-- The database state: the tables the core services touch. -/
structure DBState where
  orders : List OrderRec
  merchants : List MerchantRec
  balanceLogs : List BalanceLogRec
  callbackLogs : List CallbackLogRec
  deriving Repr, DecidableEq

/-- The empty store produced by `init_db` (no orders, no merchants, no logs). -/
def initState : DBState := ⟨[], [], [], []⟩

/-! ## Order engine (`app/services/order_service.py`) -/

/-- The row scan of `OrderService.adjust_amount`:
`SELECT money FROM orders WHERE status = 0 AND money >= ? AND money <= ?`
with bounds `original_amount` and `original_amount + 0.99`.  Note that the SQL
filters only on `status` and the money range; there is no `credential_id`
condition. -/
def occupied_moneys (orders : List OrderRec) (orig : ℚ) : List ℚ :=
  (orders.filter fun o =>
    o.status == 0 && decide (orig ≤ o.money) && decide (o.money ≤ orig + 99/100)).map
    (fun o => o.money)

/-- `OrderService.adjust_amount`: starting from the requested amount, try
`original + 0.01·i` for `i = 0, …, 99` (each candidate quantized to two decimal
places as the code does) and return the first one not occupied by a PENDING
order in the scanned range; raise `AmountConflictError` (here `.error ()`) when
all 100 candidates are taken. -/
def adjust_amount (orders : List OrderRec) (orig : ℚ) : Except Unit ℚ :=
  match (List.range 100).find? (fun (i : ℕ) =>
      decide (quantize2 (orig + (i : ℚ) / 100) ∉ occupied_moneys orders orig)) with
  | some i => .ok (quantize2 (orig + (i : ℚ) / 100))
  | none => .error ()

/-- Errors of `OrderService.create_order` (raised as exceptions in the code). -/
inductive CreateErr where
  | merchantMissing
  | merchantInactive
  | credentialMissing
  | amountConflict
  deriving Repr, DecidableEq

/-- The caller-supplied parameters of `OrderService.create_order`
(`params` dict, after `Decimal(money_str)` parsing). -/
structure CreateParams where
  pid : ℕ
  otype : String
  outTradeNo : String
  oname : String
  moneyRaw : ℚ
  notifyUrl : Option String
  returnUrl : Option String
  param : Option String
  deriving Repr, DecidableEq

/-- The id `sqlite` hands out for the inserted row (`cursor.lastrowid` of the
AUTOINCREMENT primary key): one more than the largest existing id. -/
def next_oid (s : DBState) : ℕ := (s.orders.map (fun o => o.oid)).foldr max 0 + 1

/-- `OrderService.create_order`.  Oracle inputs stand for the collaborators the
code calls out to: `resolved` is the result of
`resolve_credential_for_merchant` (the credential id of the resolved bundle, or
`none` when the merchant has no bundle), `balRes` the wallet balance query
(`none` = query failed, in which case the code falls back to base balance 0),
`tradeNo` the generated trade number and `now` the current time.  On success
the new row is appended with `status = 0`. -/
def create_order (s : DBState) (p : CreateParams) (resolved : Option (Option ℕ))
    (balRes : Option ℚ) (tradeNo : String) (now : ℕ) :
    Except CreateErr (DBState × OrderRec) :=
  match s.merchants.find? (fun m => m.mid == p.pid) with
  | none => .error .merchantMissing
  | some m =>
    if m.active ≠ 1 then .error .merchantInactive
    else match resolved with
      | none => .error .credentialMissing
      | some credentialId =>
        let orig := quantize2 p.moneyRaw
        match adjust_amount s.orders orig with
        | .error _ => .error .amountConflict
        | .ok adjusted =>
          let baseBal := balRes.getD 0
          let o : OrderRec :=
            { oid := next_oid s, tradeNo := tradeNo, outTradeNo := p.outTradeNo,
              merchantId := p.pid, credentialId := credentialId, otype := p.otype,
              oname := p.oname, originalMoney := orig, money := adjusted,
              adjustAmount := adjusted - orig, status := 0,
              notifyUrl := p.notifyUrl, returnUrl := p.returnUrl, param := p.param,
              baseBalance := baseBal, confirmBalance := none,
              callbackStatus := 0, callbackAttempts := 0,
              createdAt := now, paidAt := none, expiredAt := none }
          .ok ({ s with orders := s.orders ++ [o] }, o)

/-- `OrderService.expire_orders`: set `status = 2, expired_at = now` for every
order with `status = 0` and `created_at < now − 10 min`. -/
def expire_orders (s : DBState) (now : ℕ) : DBState :=
  { s with orders := s.orders.map fun o =>
      if o.status = 0 ∧ o.createdAt < now - 600 then
        { o with status := 2, expiredAt := some now }
      else o }

/-! ## Poller timeout path (`app/services/payment_poller.py`) -/

/-- `payment_poller._expire_order`: `UPDATE orders SET status = 2, expired_at =
now WHERE trade_no = ? AND status = 0`. -/
def poller_expire_order (s : DBState) (tn : String) (now : ℕ) : DBState :=
  { s with orders := s.orders.map fun o =>
      if o.tradeNo = tn ∧ o.status = 0 then
        { o with status := 2, expiredAt := some now }
      else o }

/-! ## Admin cancel (`app/routes/admin.py`, `cancel_order`) -/

/-- `cancel_order`: load the order by trade number; only a PENDING order is
cancelled (`status = 2, expired_at = now`, updated by row id). -/
def admin_cancel (s : DBState) (tn : String) (now : ℕ) : DBState × Bool :=
  match s.orders.find? (fun o => o.tradeNo == tn) with
  | none => (s, false)
  | some q =>
    if q.status ≠ 0 then (s, false)
    else
      ({ s with orders := s.orders.map fun o =>
          if o.oid = q.oid then { o with status := 2, expiredAt := some now } else o },
        true)

/-! ## Callback engine (`app/services/callback_service.py`) -/

/-- A merchant HTTP response as `httpx` reports it: status code and body text.
A transport error (exception) is embedded as `none` at the call sites. -/
structure HttpResp where
  statusCode : ℕ
  body : String
  deriving Repr, DecidableEq

/-- Python truthiness of the optional `notify_url` / `return_url` columns:
`if not url` is true for SQL NULL and for the empty string. -/
def urlBlank : Option String → Bool
  | none => true
  | some u => u == ""

/-- `CallbackService._update_callback_status`: set `callback_status` and
`callback_attempts` of one order row. -/
def update_callback_status (s : DBState) (oid : ℕ) (st att : ℕ) : DBState :=
  { s with orders := s.orders.map fun o =>
      if o.oid = oid then { o with callbackStatus := st, callbackAttempts := att } else o }

/-- `CallbackService._log_callback`: append a `callback_logs` row. -/
def log_callback (s : DBState) (oid att : ℕ) (url : String) (st : Option ℕ)
    (body : Option String) : DBState :=
  { s with callbackLogs := s.callbackLogs ++ [⟨oid, att, url, st, body⟩] }

/-- Python `str.strip()`: drop the whitespace characters surrounding the
string. -/
def pyStrip (s : String) : String :=
  ⟨((s.data.dropWhile Char.isWhitespace).reverse.dropWhile Char.isWhitespace).reverse⟩

/-- The success test of `send_notify` / `retry_notify`:
`response_body = resp.text.strip(); success = response_body == "success"`.
A transport error (`resp = none`) is a failure.  The HTTP status code is not
consulted. -/
def notifySuccess : Option HttpResp → Bool
  | none => false
  | some r => pyStrip r.body == "success"

/-- The stripped response body that `send_notify` records in the log
(for a transport error the code stores the exception text, embedded as
`none`). -/
def notifyLoggedBody : Option HttpResp → Option String
  | none => none
  | some r => some (pyStrip r.body)

/-- The HTTP status `send_notify` records in the log (`None` on transport
error). -/
def notifyLoggedStatus : Option HttpResp → Option ℕ
  | none => none
  | some r => some r.statusCode

/-- `CallbackService.send_notify order_id`: load the order joined with its
merchant; skip when either is missing or the order has no `notify_url`; mark
in-flight (`callback_status = 3`, attempts + 1), POST (the merchant's response
is the oracle input `resp`), log the attempt, then set `callback_status` to 1
on success, to 2 when the total attempts have reached 6
(`len(RETRY_INTERVALS) + 1`), and keep 3 otherwise.  Returns whether the
merchant answered `success`. -/
def send_notify (s : DBState) (oid : ℕ) (resp : Option HttpResp) : DBState × Bool :=
  match s.orders.find? (fun o => o.oid == oid) with
  | none => (s, false)
  | some o =>
    match s.merchants.find? (fun m => m.mid == o.merchantId) with
    | none => (s, false)
    | some _ =>
      if urlBlank o.notifyUrl then (s, false)
      else
        let url := o.notifyUrl.getD ""
        let attempts := o.callbackAttempts + 1
        let s1 := update_callback_status s oid 3 attempts
        let ok := notifySuccess resp
        let s2 := log_callback s1 oid attempts url (notifyLoggedStatus resp)
          (notifyLoggedBody resp)
        let s3 :=
          if ok then update_callback_status s2 oid 1 attempts
          else if 6 ≤ attempts then update_callback_status s2 oid 2 attempts
          else update_callback_status s2 oid 3 attempts
        (s3, ok)

/-- `CallbackService.retry_notify order_id attempt` (attempt ∈ 1..5): re-send
the notification; invalid attempt numbers, a missing order, an already
successful callback (`callback_status = 1`) and a blank `notify_url` are
no-ops.  Otherwise total attempts become `attempt + 1`; on failure of the last
retry (`attempt ≥ 5`) the order is marked `callback_status = 2`. -/
def retry_notify (s : DBState) (oid attempt : ℕ) (resp : Option HttpResp) : DBState :=
  if attempt < 1 ∨ 5 < attempt then s
  else
    match s.orders.find? (fun o => o.oid == oid) with
    | none => s
    | some o =>
      if o.callbackStatus = 1 then s
      else
        match s.merchants.find? (fun m => m.mid == o.merchantId) with
        | none => s
        | some _ =>
          if urlBlank o.notifyUrl then s
          else
            let url := o.notifyUrl.getD ""
            let total := attempt + 1
            let s1 := update_callback_status s oid 3 total
            let ok := notifySuccess resp
            let s2 := log_callback s1 oid total url (notifyLoggedStatus resp)
              (notifyLoggedBody resp)
            if ok then update_callback_status s2 oid 1 total
            else if 5 ≤ attempt then update_callback_status s2 oid 2 total
            else update_callback_status s2 oid 3 total

/-! ### Return-url building (`CallbackService.build_return_url`)

A URL query string is embedded as its list of `(key, value)` parameters in
order of appearance.  `urlparse`/`parse_qs`/`urlencode` round-trip parameter
values, so the string-level percent-coding is dropped from the embedding. -/

/-- `{k: v[0] for k, v in parse_qs(query).items()}`: `parse_qs` groups values
by key in order of first appearance and the comprehension keeps only the first
value of each key. -/
def flattenFirst : List (String × String) → List (String × String)
  | [] => []
  | (k, v) :: rest => (k, v) :: (flattenFirst rest).filter fun p => p.1 ≠ k

/-- Python `{**a, **b}` for dicts given as key-value lists whose keys are
unique (as they are for a parsed-and-flattened query and for the signed
parameter dict): keys of `a` keep their position, values overridden by `b` on
collision; keys only in `b` follow in `b`'s order. -/
def pyDictUnion (a b : List (String × String)) : List (String × String) :=
  (a.map fun p => (p.1, ((b.lookup p.1).getD p.2))) ++
    b.filter fun p => (a.lookup p.1).isNone

/-- The query-parameter list of the URL `build_return_url` produces, given the
pre-existing query parameters of `return_url` and the signed notification
parameters: `merged = {**flat_existing, **signed_params}` with
`flat_existing` the first-value-per-key flattening. -/
def build_return_url_query (existing signedParams : List (String × String)) :
    List (String × String) :=
  pyDictUnion (flattenFirst existing) signedParams

/-- `CallbackService._build_notify_params` followed by `_sign_params`: the
notification parameter dict in insertion order, with the `sign` value
(an MD5 digest in the code) abstracted as the argument `sig`. -/
def build_signed_params (o : OrderRec) (pid : ℕ) (sig : String) :
    List (String × String) :=
  [("pid", toString pid), ("trade_no", o.tradeNo), ("out_trade_no", o.outTradeNo),
   ("type", o.otype), ("name", o.oname), ("money", toString o.money),
   ("trade_status", "TRADE_SUCCESS"), ("param", o.param.getD ""),
   ("sign_type", "MD5"), ("sign", sig)]

/-! ## Reconciler (`app/services/balance_checker.py`) -/

/-- `BalanceChecker._log_balance_query`: append a `balance_logs` row. -/
def log_balance_query (s : DBState) (amount : ℚ) (mr : MatchResult)
    (tns : Option (List String)) : DBState :=
  { s with balanceLogs := s.balanceLogs ++ [⟨amount, mr, tns⟩] }

/-- `BalanceChecker._get_pending_orders`:
`SELECT … FROM orders WHERE status = 0 ORDER BY created_at ASC`.
The sort is a stable ascending sort on `created_at` over the rows in table
order. -/
def get_pending_orders (s : DBState) : List OrderRec :=
  List.insertionSort (fun a b => a.createdAt ≤ b.createdAt)
    (s.orders.filter fun o => o.status == 0)

/-- The same-credential sibling list `pending_orders` of
`BalanceChecker.check_payment` step 3: all pending orders sorted by
`created_at`, filtered to the queried order's `credential_id`. -/
def pending_same_cred (s : DBState) (cid : Option ℕ) : List OrderRec :=
  (get_pending_orders s).filter fun o => o.credentialId == cid

/-- `BalanceChecker._mark_orders_paid`: for a non-empty id list, set
`status = 1, confirm_balance, paid_at` on the listed rows and credit every
merchant with the summed `money` of its listed orders. -/
def mark_orders_paid (s : DBState) (ids : List ℕ) (confirmBalance : ℚ) (now : ℕ) :
    DBState :=
  if ids = [] then s
  else
    { s with
      orders := s.orders.map fun o =>
        if o.oid ∈ ids then
          { o with status := 1, confirmBalance := some confirmBalance, paidAt := some now }
        else o,
      merchants := s.merchants.map fun m =>
        { m with money := m.money +
            ((s.orders.filter fun o => o.oid ∈ ids ∧ o.merchantId = m.mid).map
              (fun o => o.money)).sum } }

/-- `BalanceChecker._trigger_callbacks`: best-effort `send_notify` for each
matched order id in turn; `resps k` is the merchant response oracle for the
`k`-th notification. -/
def trigger_callbacks (s : DBState) (ids : List ℕ) (resps : ℕ → Option HttpResp) :
    DBState :=
  (ids.enum.foldl (fun st p => (send_notify st p.2 (resps p.1)).1) s)

/-! ### The subset-sum search (`BalanceChecker._subset_sum_dfs`)

The Python function is a depth-first backtracking search over index suffixes
with a mutable `best_result`.  The embedding threads `best` explicitly: the
candidate suffix is carried as an index-amount list (position `i` of the
Python `amounts` list paired with `amounts[i]`), and the body of the nested
`dfs` function at a recursion entry is inlined at its two call sites (the
top-level call and the recursive call inside the loop). -/

/-- `best_result is None or len(path) < len(best_result)` — the update test at
`remaining == 0`. -/
def improves (path : List ℕ) : Option (List ℕ) → Bool
  | none => true
  | some b => path.length < b.length

/-- `best_result is not None and len(best_result) == 1` — the single-match
shortcut tested at every `dfs` entry. -/
def isBestSingleton : Option (List ℕ) → Bool
  | none => false
  | some b => b.length == 1

/-- `best_result is not None and len(path) + 1 >= len(best_result)` — the
second prune, which aborts the whole loop. -/
def pruneLonger (path : List ℕ) : Option (List ℕ) → Bool
  | none => false
  | some b => b.length ≤ path.length + 1

/-- The body of the Python `dfs` at a recursion entry (the checks before the
loop): record the path at `remaining == 0`, abandon at `remaining < 0`, stop
once a single-order match is known, otherwise run the loop. -/
def dfsStep (loop : ℤ → List ℕ → Option (List ℕ) → Option (List ℕ))
    (remaining : ℤ) (path : List ℕ) (best : Option (List ℕ)) : Option (List ℕ) :=
  if remaining = 0 then (if improves path best then some path else best)
  else if remaining < 0 then best
  else if isBestSingleton best then best
  else loop remaining path best

/-- The `for i in range(start, n)` loop of `dfs`, over the suffix of
index-amount pairs from position `start`: skip a candidate larger than the
remaining target, abort the loop when even one more element cannot beat the
best known, otherwise take the candidate (a full `dfs` entry on the rest of
the suffix) and continue the loop with the updated best. -/
def dfsLoop : List (ℕ × ℤ) → ℤ → List ℕ → Option (List ℕ) → Option (List ℕ)
  | [], _, _, best => best
  | (i, a) :: rest, remaining, path, best =>
    if remaining < a then dfsLoop rest remaining path best
    else if pruneLonger path best then best
    else dfsLoop rest remaining path
      (dfsStep (dfsLoop rest) (remaining - a) (path ++ [i]) best)

/-- `BalanceChecker._subset_sum_dfs amounts target`: `dfs(0, target, [])` with
`best_result = None`, returning the final `best_result`. -/
def subset_sum_dfs (amounts : List ℤ) (target : ℤ) : Option (List ℕ) :=
  dfsStep (dfsLoop amounts.enum) target [] none

/-- `BalanceChecker.check_payment trade_no` with the wallet balance query
outcome `bal` (`.error ()` = `AlipayClientError`), the wall clock `now` and
the merchant notification responses `resps` as oracle inputs.  Returns the
new database state and the boolean the method returns. -/
def check_payment (s : DBState) (tn : String) (bal : Except Unit ℚ) (now : ℕ)
    (resps : ℕ → Option HttpResp) : DBState × Bool :=
  match s.orders.find? (fun o => o.tradeNo == tn) with
  | none => (s, false)
  | some q =>
    if q.status = 1 then (s, true)
    else if q.status ≠ 0 then (s, false)
    else match bal with
      | .error _ => (log_balance_query s 0 .queryFailure none, false)
      | .ok b =>
        if get_pending_orders s = [] then
          (log_balance_query s b .noPending none, false)
        else
          let pending := pending_same_cred s q.credentialId
          if pending = [] then
            (log_balance_query s b .noSameCredPending none, false)
          else
            let diff := b - (pending.headD default).baseBalance
            if diff ≤ 0 then
              (log_balance_query s b .noPositiveChange none, false)
            else
              let target := toCents diff
              let orderCents := pending.map fun o => toCents o.money
              match subset_sum_dfs orderCents target with
              | some idxs =>
                let matchedIds := idxs.map fun i => (pending.getD i default).oid
                let matchedTns := idxs.map fun i => (pending.getD i default).tradeNo
                let s1 := mark_orders_paid s matchedIds b now
                let s2 := log_balance_query s1 b .matchSuccess (some matchedTns)
                let s3 := trigger_callbacks s2 matchedIds resps
                (s3, tn ∈ matchedTns)
              | none =>
                (log_balance_query s b .noMatch none, false)

/-- `BalanceChecker.update_base_balances_after_expiry`: group the pending
orders by credential, query each group's balance (`balOf` is the per-credential
query oracle, `none` = failure, which skips the group) and overwrite
`base_balance` for every pending order of a successfully queried group. -/
def update_base_balances (s : DBState) (balOf : Option ℕ → Option ℚ) : DBState :=
  { s with orders := s.orders.map fun o =>
      if o.status = 0 then
        match balOf o.credentialId with
        | some b => { o with baseBalance := b }
        | none => o
      else o }

/-! ## The operations as a transition system

One step is one of the core operations applied with arbitrary oracle inputs.
The admin merchant CRUD is out of the modelled core and never touches the
`orders` table; it is abstracted as a step that replaces the `merchants`
table. -/

/-- One operation of the system. -/
inductive Step : DBState → DBState → Prop
  | create (s : DBState) (p : CreateParams) (resolved : Option (Option ℕ))
      (balRes : Option ℚ) (tradeNo : String) (now : ℕ) (s' : DBState) (o : OrderRec)
      (h : create_order s p resolved balRes tradeNo now = .ok (s', o)) : Step s s'
  | createFail (s : DBState) (p : CreateParams) (resolved : Option (Option ℕ))
      (balRes : Option ℚ) (tradeNo : String) (now : ℕ) (e : CreateErr)
      (h : create_order s p resolved balRes tradeNo now = .error e) : Step s s
  | check (s : DBState) (tn : String) (bal : Except Unit ℚ) (now : ℕ)
      (resps : ℕ → Option HttpResp) : Step s (check_payment s tn bal now resps).1
  | expire (s : DBState) (now : ℕ) : Step s (expire_orders s now)
  | pollerExpire (s : DBState) (tn : String) (now : ℕ) :
      Step s (poller_expire_order s tn now)
  | cancel (s : DBState) (tn : String) (now : ℕ) : Step s (admin_cancel s tn now).1
  | notify (s : DBState) (oid : ℕ) (resp : Option HttpResp) :
      Step s (send_notify s oid resp).1
  | retry (s : DBState) (oid attempt : ℕ) (resp : Option HttpResp) :
      Step s (retry_notify s oid attempt resp)
  | rebase (s : DBState) (balOf : Option ℕ → Option ℚ) :
      Step s (update_base_balances s balOf)
  | merchantsAdmin (s : DBState) (ms : List MerchantRec) :
      Step s { s with merchants := ms }

/-- A database state reachable from the empty store by core operations. -/
def Reachable (s : DBState) : Prop := Relation.ReflTransGen Step initState s

/-! ## Correctness of the subset-sum search

`Choice rest t l` says: `l` is the index list of a sub-selection of the
index-amount suffix `rest` whose amounts sum to `t` — exactly the solutions the
Python `dfs` ranges over from a given position. -/

/-- `l` lists the first components of some sublist of `rest` whose second
components sum to `t`. -/
def Choice (rest : List (ℕ × ℤ)) (t : ℤ) (l : List ℕ) : Prop :=
  ∃ s : List (ℕ × ℤ), s.Sublist rest ∧ l = s.map Prod.fst ∧ (s.map Prod.snd).sum = t

/-- `k` beats the current best length (`True` when there is no best yet). -/
def shorterThan (k : ℕ) : Option (List ℕ) → Prop
  | none => True
  | some b => k < b.length

/-- Lexicographic-or-equal order on index lists: the order in which the
depth-first search visits complete solutions. -/
def lexLE (m l : List ℕ) : Prop := m = l ∨ List.Lex (· < ·) m l

theorem choice_nil (rest : List (ℕ × ℤ)) : Choice rest 0 [] :=
  ⟨[], List.nil_sublist rest, rfl, rfl⟩

theorem choice_of_nil_list {rest : List (ℕ × ℤ)} {t : ℤ} (h : Choice rest t []) : t = 0 := by
  obtain ⟨s, _, hmap, hsum⟩ := h
  have : s = [] := by
    cases s with
    | nil => rfl
    | cons x xs => simp at hmap
  subst this; simpa using hsum.symm

theorem choice_ne_nil {rest : List (ℕ × ℤ)} {t : ℤ} {l : List ℕ}
    (h : Choice rest t l) (ht : t ≠ 0) : l ≠ [] := by
  intro hl; subst hl; exact ht (choice_of_nil_list h)

theorem choice_nonneg {rest : List (ℕ × ℤ)} {t : ℤ} {l : List ℕ}
    (hnn : ∀ p ∈ rest, 0 ≤ p.2) (h : Choice rest t l) : 0 ≤ t := by
  obtain ⟨s, hsub, _, hsum⟩ := h
  subst hsum
  exact List.sum_nonneg fun x hx => by
    obtain ⟨p, hp, rfl⟩ := List.mem_map.mp hx
    exact hnn p (hsub.subset hp)

theorem choice_cons_elim {i : ℕ} {a : ℤ} {rest : List (ℕ × ℤ)} {t : ℤ} {l : List ℕ}
    (h : Choice ((i, a) :: rest) t l) :
    Choice rest t l ∨ ∃ l₁, l = i :: l₁ ∧ Choice rest (t - a) l₁ := by
  obtain ⟨s, hsub, hmap, hsum⟩ := h
  rcases List.sublist_cons_iff.mp hsub with hs | ⟨r, rfl, hr⟩
  · exact Or.inl ⟨s, hs, hmap, hsum⟩
  · right
    refine ⟨r.map Prod.fst, by simpa using hmap, r, hr, rfl, ?_⟩
    have : a + (r.map Prod.snd).sum = t := by simpa using hsum
    omega

theorem choice_cons_skip {i : ℕ} {a : ℤ} {rest : List (ℕ × ℤ)} {t : ℤ} {l : List ℕ}
    (h : Choice rest t l) : Choice ((i, a) :: rest) t l := by
  obtain ⟨s, hsub, hmap, hsum⟩ := h
  exact ⟨s, hsub.cons _, hmap, hsum⟩

theorem choice_cons_take {i : ℕ} {a : ℤ} {rest : List (ℕ × ℤ)} {t : ℤ} {l₁ : List ℕ}
    (h : Choice rest (t - a) l₁) : Choice ((i, a) :: rest) t (i :: l₁) := by
  obtain ⟨s, hsub, hmap, hsum⟩ := h
  exact ⟨(i, a) :: s, hsub.cons₂ _, by simp [hmap], by simp [hsum]⟩

theorem choice_head_mem {rest : List (ℕ × ℤ)} {t : ℤ} {j : ℕ} {l₂ : List ℕ}
    (h : Choice rest t (j :: l₂)) : j ∈ rest.map Prod.fst := by
  obtain ⟨s, hsub, hmap, _⟩ := h
  cases s with
  | nil => simp at hmap
  | cons x xs =>
    have : j = x.1 := by simpa using congrArg (fun l => l.headD 0) hmap
    subst this
    exact List.mem_map.mpr ⟨x, hsub.subset (List.mem_cons_self x xs), rfl⟩

theorem shorterThan_of_lt {k k' : ℕ} {best : Option (List ℕ)} (hk : k ≤ k')
    (h : shorterThan k' best) : shorterThan k best := by
  cases best with
  | none => trivial
  | some b => exact lt_of_le_of_lt hk h

theorem improves_iff (path : List ℕ) (best : Option (List ℕ)) :
    improves path best = true ↔ shorterThan path.length best := by
  cases best <;> simp [improves, shorterThan]

theorem isBestSingleton_iff (best : Option (List ℕ)) :
    isBestSingleton best = true ↔ ∃ b, best = some b ∧ b.length = 1 := by
  cases best <;> simp [isBestSingleton]

theorem pruneLonger_iff (path : List ℕ) (best : Option (List ℕ)) :
    pruneLonger path best = true ↔ ∃ b, best = some b ∧ b.length ≤ path.length + 1 := by
  cases best <;> simp [pruneLonger]

/-- Qualifying solution: a choice from the suffix that, extended onto the
current path (of length `plen`), is strictly shorter than the best known. -/
def Qual (rest : List (ℕ × ℤ)) (t : ℤ) (plen : ℕ) (best : Option (List ℕ))
    (l : List ℕ) : Prop :=
  Choice rest t l ∧ shorterThan (plen + l.length) best

/-- Correctness contract of one search call: if no qualifying solution exists
the best is returned unchanged; otherwise the result is the path extended by a
qualifying solution of minimal length that is lexicographically least (i.e.
first in depth-first visit order) among the qualifying solutions of that
length. -/
def DfsSpec (rest : List (ℕ × ℤ)) (t : ℤ) (path : List ℕ)
    (best best' : Option (List ℕ)) : Prop :=
  ((∀ l, ¬ Qual rest t path.length best l) → best' = best) ∧
  (∀ l0, Qual rest t path.length best l0 →
    ∃ m, Qual rest t path.length best m ∧ best' = some (path ++ m) ∧
      ∀ l, Qual rest t path.length best l →
        m.length ≤ l.length ∧ (l.length = m.length → lexLE m l))

theorem choice_nil_elim {t : ℤ} {l : List ℕ} (h : Choice [] t l) : l = [] ∧ t = 0 := by
  obtain ⟨s, hsub, hmap, hsum⟩ := h
  have hs : s = [] := List.sublist_nil.mp hsub
  subst hs
  simp only [List.map_nil, List.sum_nil] at hmap hsum
  exact ⟨hmap, hsum.symm⟩

theorem lexLE_cons {i : ℕ} {m l : List ℕ} (h : lexLE m l) : lexLE (i :: m) (i :: l) := by
  rcases h with rfl | hx
  · exact Or.inl rfl
  · exact Or.inr (List.Lex.cons hx)

theorem qual_cons_iff {i : ℕ} {a : ℤ} {rest : List (ℕ × ℤ)} {t : ℤ} {plen : ℕ}
    {best : Option (List ℕ)} (l : List ℕ) :
    Qual ((i, a) :: rest) t plen best l ↔
      (∃ l₁, l = i :: l₁ ∧ Qual rest (t - a) (plen + 1) best l₁) ∨
        Qual rest t plen best l := by
  have harith : ∀ l₁ : List ℕ, plen + (i :: l₁).length = (plen + 1) + l₁.length := by
    intro l₁; simp only [List.length_cons]; omega
  constructor
  · rintro ⟨hc, hs⟩
    rcases choice_cons_elim hc with hc' | ⟨l₁, rfl, hc'⟩
    · exact Or.inr ⟨hc', hs⟩
    · exact Or.inl ⟨l₁, rfl, hc', by rwa [harith l₁] at hs⟩
  · rintro (⟨l₁, rfl, hc, hs⟩ | ⟨hc, hs⟩)
    · exact ⟨choice_cons_take hc, by rwa [harith l₁]⟩
    · exact ⟨choice_cons_skip hc, hs⟩

theorem dfsStep_spec {rest : List (ℕ × ℤ)} (hnn : ∀ p ∈ rest, 0 ≤ p.2)
    (hloop : ∀ t path best, 0 < t → DfsSpec rest t path best (dfsLoop rest t path best))
    (t : ℤ) (path : List ℕ) (best : Option (List ℕ)) :
    DfsSpec rest t path best (dfsStep (dfsLoop rest) t path best) := by
  unfold dfsStep
  by_cases h0 : t = 0
  · subst h0
    rw [if_pos rfl]
    by_cases himp : improves path best = true
    · rw [if_pos himp]
      have hq : Qual rest 0 path.length best [] :=
        ⟨choice_nil rest, by simpa using (improves_iff path best).mp himp⟩
      constructor
      · intro hno; exact absurd hq (hno [])
      · intro l0 _
        refine ⟨[], hq, by simp, fun l hl => ⟨Nat.zero_le _, fun hlen => ?_⟩⟩
        have : l = [] := List.length_eq_zero.mp (by simpa using hlen)
        exact Or.inl this.symm
    · rw [if_neg himp]
      have hno : ∀ l, ¬ Qual rest 0 path.length best l := by
        rintro l ⟨_, hs⟩
        exact himp ((improves_iff path best).mpr
          (shorterThan_of_lt (Nat.le_add_right _ _) hs))
      exact ⟨fun _ => rfl, fun l0 hl0 => absurd hl0 (hno l0)⟩
  · rw [if_neg h0]
    by_cases hneg : t < 0
    · rw [if_pos hneg]
      have hno : ∀ l, ¬ Qual rest t path.length best l := by
        rintro l ⟨hc, _⟩
        have := choice_nonneg hnn hc
        omega
      exact ⟨fun _ => rfl, fun l0 hl0 => absurd hl0 (hno l0)⟩
    · rw [if_neg hneg]
      by_cases hsing : isBestSingleton best = true
      · rw [if_pos hsing]
        obtain ⟨b, rfl, hb1⟩ := (isBestSingleton_iff best).mp hsing
        have hno : ∀ l, ¬ Qual rest t path.length (some b) l := by
          rintro l ⟨hc, hs⟩
          have hne := choice_ne_nil hc h0
          have h1 : 1 ≤ l.length := by
            cases l with
            | nil => exact absurd rfl hne
            | cons _ _ => simp
          simp only [shorterThan] at hs
          omega
        exact ⟨fun _ => rfl, fun l0 hl0 => absurd hl0 (hno l0)⟩
      · rw [if_neg hsing]
        exact hloop t path best (by omega)

theorem dfsLoop_spec : ∀ (rest : List (ℕ × ℤ)), (∀ p ∈ rest, 0 ≤ p.2) →
    (rest.map Prod.fst).Pairwise (· < ·) →
    ∀ t path best, 0 < t → DfsSpec rest t path best (dfsLoop rest t path best) := by
  intro rest
  induction rest with
  | nil =>
    intro _ _ t path best ht
    refine ⟨fun _ => rfl, fun l0 hl0 => absurd hl0 ?_⟩
    rintro ⟨hc, _⟩
    have := (choice_nil_elim hc).2
    omega
  | cons x rest ih =>
    obtain ⟨i, a⟩ := x
    intro hnn hinc t path best ht
    have hnn' : ∀ p ∈ rest, 0 ≤ p.2 := fun p hp => hnn p (List.mem_cons_of_mem _ hp)
    have hcons := List.pairwise_cons.mp hinc
    have hinc' : (rest.map Prod.fst).Pairwise (· < ·) := hcons.2
    have hlt : ∀ j ∈ rest.map Prod.fst, i < j := hcons.1
    have hloop := ih hnn' hinc'
    rw [dfsLoop]
    by_cases hskip : t < a
    · rw [if_pos hskip]
      have base := hloop t path best ht
      have hiff : ∀ l, Qual ((i, a) :: rest) t path.length best l ↔
          Qual rest t path.length best l := by
        intro l
        rw [qual_cons_iff]
        constructor
        · rintro (⟨l₁, rfl, hq⟩ | hq)
          · exfalso
            have h0 : 0 ≤ t - a := choice_nonneg hnn' hq.1
            omega
          · exact hq
        · exact Or.inr
      constructor
      · intro hno
        exact base.1 fun l hl => hno l ((hiff l).mpr hl)
      · intro l0 hl0
        obtain ⟨m, hm, hbest, hmin⟩ := base.2 l0 ((hiff l0).mp hl0)
        exact ⟨m, (hiff m).mpr hm, hbest, fun l hl => hmin l ((hiff l).mp hl)⟩
    · rw [if_neg hskip]
      by_cases hprune : pruneLonger path best = true
      · rw [if_pos hprune]
        obtain ⟨b, rfl, hble⟩ := (pruneLonger_iff path best).mp hprune
        have hno : ∀ l, ¬ Qual ((i, a) :: rest) t path.length (some b) l := by
          rintro l ⟨hc, hs⟩
          have hne := choice_ne_nil hc (by omega)
          have h1 : 1 ≤ l.length := by
            cases l with
            | nil => exact absurd rfl hne
            | cons _ _ => simp
          simp only [shorterThan] at hs
          omega
        exact ⟨fun _ => rfl, fun l0 hl0 => absurd hl0 (hno l0)⟩
      · rw [if_neg hprune]
        have estep := dfsStep_spec hnn' hloop (t - a) (path ++ [i]) best
        have hp1 : (path ++ [i]).length = path.length + 1 := by simp
        unfold DfsSpec at estep
        rw [hp1] at estep
        set best1 := dfsStep (dfsLoop rest) (t - a) (path ++ [i]) best with hbest1
        have lstep := hloop t path best1 ht
        have happ : ∀ m₁ : List ℕ, (path ++ [i]) ++ m₁ = path ++ (i :: m₁) := by
          intro m₁; simp
        by_cases hA : ∃ l₁, Qual rest (t - a) (path.length + 1) best l₁
        · obtain ⟨la, hla⟩ := hA
          obtain ⟨m₁, hm₁, hb₁, hmin₁⟩ := estep.2 la hla
          rw [happ m₁] at hb₁
          have hlen1 : (path ++ i :: m₁).length = path.length + 1 + m₁.length := by
            simp only [List.length_append, List.length_cons]; omega
          by_cases hB : ∃ l₂, Qual rest t path.length best1 l₂
          · obtain ⟨lb, hlb⟩ := hB
            obtain ⟨m₂, hm₂, hb₂, hmin₂⟩ := lstep.2 lb hlb
            have hm₂lt : path.length + m₂.length < path.length + 1 + m₁.length := by
              have := hm₂.2
              rw [hb₁] at this
              simpa [shorterThan, hlen1] using this
            have hqm₂ : Qual ((i, a) :: rest) t path.length best m₂ := by
              refine ⟨choice_cons_skip hm₂.1, ?_⟩
              exact shorterThan_of_lt (by omega) hm₁.2
            constructor
            · intro hno; exact absurd hqm₂ (hno m₂)
            · intro l0 _
              refine ⟨m₂, hqm₂, hb₂, ?_⟩
              intro l hl
              rcases (qual_cons_iff l).mp hl with ⟨l₁, rfl, hq⟩ | hq
              · have := (hmin₁ l₁ hq).1
                simp only [List.length_cons]
                constructor
                · omega
                · intro hlen; omega
              · by_cases hql : shorterThan (path.length + l.length) best1
                · exact hmin₂ l ⟨hq.1, hql⟩
                · rw [hb₁] at hql
                  simp only [shorterThan, hlen1, not_lt] at hql
                  constructor
                  · omega
                  · intro hlen; omega
          · have hb₂ : dfsLoop rest t path best1 = best1 :=
              lstep.1 fun l hl => hB ⟨l, hl⟩
            have hqm : Qual ((i, a) :: rest) t path.length best (i :: m₁) :=
              (qual_cons_iff (i :: m₁)).mpr (Or.inl ⟨m₁, rfl, hm₁⟩)
            constructor
            · intro hno; exact absurd hqm (hno (i :: m₁))
            · intro l0 _
              refine ⟨i :: m₁, hqm, by rw [hb₂, hb₁], ?_⟩
              intro l hl
              rcases (qual_cons_iff l).mp hl with ⟨l₁, rfl, hq⟩ | hq
              · have hmin := hmin₁ l₁ hq
                simp only [List.length_cons]
                refine ⟨by omega, fun hlen => ?_⟩
                exact lexLE_cons (hmin.2 (by omega))
              · have hnq : ¬ shorterThan (path.length + l.length) best1 :=
                  fun hql => hB ⟨l, ⟨hq.1, hql⟩⟩
                rw [hb₁] at hnq
                simp only [shorterThan, hlen1, not_lt] at hnq
                refine ⟨by simp only [List.length_cons]; omega, fun hlen => ?_⟩
                obtain ⟨j, l₂, rfl⟩ : ∃ j l₂, l = j :: l₂ := by
                  cases l with
                  | nil => exact absurd rfl (choice_ne_nil hq.1 (by omega))
                  | cons j l₂ => exact ⟨j, l₂, rfl⟩
                exact Or.inr (List.Lex.rel (hlt j (choice_head_mem hq.1)))
        · have hb₁eq : best1 = best := estep.1 fun l hl => hA ⟨l, hl⟩
          rw [hb₁eq] at lstep ⊢
          by_cases hB : ∃ l₂, Qual rest t path.length best l₂
          · obtain ⟨lb, hlb⟩ := hB
            obtain ⟨m₂, hm₂, hb₂, hmin₂⟩ := lstep.2 lb hlb
            have hqm₂ : Qual ((i, a) :: rest) t path.length best m₂ :=
              ⟨choice_cons_skip hm₂.1, hm₂.2⟩
            constructor
            · intro hno; exact absurd hqm₂ (hno m₂)
            · intro l0 _
              refine ⟨m₂, hqm₂, hb₂, ?_⟩
              intro l hl
              rcases (qual_cons_iff l).mp hl with ⟨l₁, rfl, hq⟩ | hq
              · exact absurd ⟨l₁, hq⟩ hA
              · exact hmin₂ l hq
          · have hb₂ : dfsLoop rest t path best = best :=
              lstep.1 fun l hl => hB ⟨l, hl⟩
            rw [hb₂]
            constructor
            · intro _; rfl
            · intro l0 hl0
              rcases (qual_cons_iff l0).mp hl0 with ⟨l₁, _, hq⟩ | hq
              · exact absurd ⟨l₁, hq⟩ hA
              · exact absurd ⟨l0, hq⟩ hB

/-- Soundness-only contract: the search either leaves the best unchanged or
returns the path extended by some choice (no hypotheses on the amounts). -/
def SoundRes (rest : List (ℕ × ℤ)) (t : ℤ) (path : List ℕ)
    (best best' : Option (List ℕ)) : Prop :=
  best' = best ∨ ∃ m, Choice rest t m ∧ best' = some (path ++ m)

theorem dfsStep_sound {rest : List (ℕ × ℤ)}
    (hloop : ∀ t path best, SoundRes rest t path best (dfsLoop rest t path best))
    (t : ℤ) (path : List ℕ) (best : Option (List ℕ)) :
    SoundRes rest t path best (dfsStep (dfsLoop rest) t path best) := by
  unfold dfsStep
  by_cases h0 : t = 0
  · subst h0; rw [if_pos rfl]
    by_cases himp : improves path best = true
    · rw [if_pos himp]; exact Or.inr ⟨[], choice_nil rest, by simp⟩
    · rw [if_neg himp]; exact Or.inl rfl
  · rw [if_neg h0]
    by_cases hneg : t < 0
    · rw [if_pos hneg]; exact Or.inl rfl
    · rw [if_neg hneg]
      by_cases hsing : isBestSingleton best = true
      · rw [if_pos hsing]; exact Or.inl rfl
      · rw [if_neg hsing]; exact hloop t path best

theorem dfsLoop_sound : ∀ (rest : List (ℕ × ℤ)) (t : ℤ) (path : List ℕ)
    (best : Option (List ℕ)), SoundRes rest t path best (dfsLoop rest t path best) := by
  intro rest
  induction rest with
  | nil => intro t path best; exact Or.inl rfl
  | cons x rest ih =>
    obtain ⟨i, a⟩ := x
    intro t path best
    rw [dfsLoop]
    by_cases hskip : t < a
    · rw [if_pos hskip]
      rcases ih t path best with h | ⟨m, hm, h⟩
      · exact Or.inl h
      · exact Or.inr ⟨m, choice_cons_skip hm, h⟩
    · rw [if_neg hskip]
      by_cases hprune : pruneLonger path best = true
      · rw [if_pos hprune]; exact Or.inl rfl
      · rw [if_neg hprune]
        have hstep := dfsStep_sound ih (t - a) (path ++ [i]) best
        set best1 := dfsStep (dfsLoop rest) (t - a) (path ++ [i]) best
        rcases ih t path best1 with h | ⟨m, hm, h⟩
        · rw [h]
          rcases hstep with h1 | ⟨m₁, hm₁, h1⟩
          · exact Or.inl h1
          · exact Or.inr ⟨i :: m₁, choice_cons_take hm₁, by rw [h1]; simp⟩
        · exact Or.inr ⟨m, choice_cons_skip hm, h⟩

/-- Soundness of `_subset_sum_dfs`: a returned index list is a choice from the
enumerated amounts summing exactly to the target. -/
theorem subset_sum_dfs_sound {amounts : List ℤ} {target : ℤ} {l : List ℕ}
    (h : subset_sum_dfs amounts target = some l) : Choice amounts.enum target l := by
  rcases dfsStep_sound (fun t path best => dfsLoop_sound amounts.enum t path best)
      target [] none with h1 | ⟨m, hm, h1⟩
  · rw [subset_sum_dfs, h1] at h; cases h
  · rw [subset_sum_dfs, h1] at h
    simp only [List.nil_append, Option.some.injEq] at h
    exact h ▸ hm

/-- Completeness and optimality of `_subset_sum_dfs` for non-negative amounts:
if any choice sums to the target, the search returns one, it has minimal
length, and among the minimal-length choices it is the first in depth-first
visit order (the lexicographically least index list). -/
theorem subset_sum_dfs_min {amounts : List ℤ} {target : ℤ}
    (hnn : ∀ x ∈ amounts, 0 ≤ x) {l0 : List ℕ} (h0 : Choice amounts.enum target l0) :
    ∃ m, subset_sum_dfs amounts target = some m ∧ Choice amounts.enum target m ∧
      ∀ l, Choice amounts.enum target l →
        m.length ≤ l.length ∧ (l.length = m.length → lexLE m l) := by
  have hnn' : ∀ p ∈ amounts.enum, 0 ≤ p.2 := by
    intro p hp
    exact hnn p.2 (List.get?_mem (List.mem_enum_iff_get?.mp hp))
  have hinc : (amounts.enum.map Prod.fst).Pairwise (· < ·) := by
    rw [List.enum_map_fst]; exact List.pairwise_lt_range _
  have hspec := dfsStep_spec hnn' (dfsLoop_spec amounts.enum hnn' hinc) target [] none
  obtain ⟨m, hm, hbest, hmin⟩ := hspec.2 l0 ⟨h0, trivial⟩
  refine ⟨m, ?_, hm.1, fun l hl => hmin l ⟨hl, trivial⟩⟩
  rw [subset_sum_dfs, hbest]
  simp

/-- Unpacking a `Choice` over enumerated amounts: the indices are strictly
increasing, in range, and the amounts they select sum to the target. -/
theorem choice_enum_elim {amounts : List ℤ} {target : ℤ} {l : List ℕ}
    (h : Choice amounts.enum target l) :
    l.Pairwise (· < ·) ∧ (∀ i ∈ l, i < amounts.length) ∧
      (l.map fun i => amounts.getD i 0).sum = target := by
  obtain ⟨s, hsub, rfl, hsum⟩ := h
  have hsubf : (s.map Prod.fst).Sublist (amounts.enum.map Prod.fst) := hsub.map _
  rw [List.enum_map_fst] at hsubf
  refine ⟨(List.pairwise_lt_range _).sublist hsubf, ?_, ?_⟩
  · intro i hi
    exact List.mem_range.mp (hsubf.subset hi)
  · rw [← hsum, List.map_map]
    congr 1
    apply List.map_congr_left
    intro p hp
    have := List.mem_enum_iff_get?.mp (hsub.subset hp)
    simp only [Function.comp_apply]
    rw [List.getD_eq_get?, this]
    rfl

/-- Unfolding `check_payment` when the order is found: the body after the
lookup. -/
theorem check_payment_found {s : DBState} {tn : String} {q : OrderRec}
    (h : s.orders.find? (fun o => o.tradeNo == tn) = some q)
    (bal : Except Unit ℚ) (now : ℕ) (resps : ℕ → Option HttpResp) :
    check_payment s tn bal now resps =
      (if q.status = 1 then (s, true)
      else if q.status ≠ 0 then (s, false)
      else match bal with
        | .error _ => (log_balance_query s 0 .queryFailure none, false)
        | .ok b =>
          if get_pending_orders s = [] then
            (log_balance_query s b .noPending none, false)
          else if pending_same_cred s q.credentialId = [] then
            (log_balance_query s b .noSameCredPending none, false)
          else if b - ((pending_same_cred s q.credentialId).headD default).baseBalance ≤ 0 then
            (log_balance_query s b .noPositiveChange none, false)
          else
            match subset_sum_dfs
                ((pending_same_cred s q.credentialId).map fun o => toCents o.money)
                (toCents (b - ((pending_same_cred s q.credentialId).headD
                  default).baseBalance)) with
            | some idxs =>
              (trigger_callbacks
                (log_balance_query
                  (mark_orders_paid s
                    (idxs.map fun i =>
                      ((pending_same_cred s q.credentialId).getD i default).oid) b now)
                  b .matchSuccess
                  (some (idxs.map fun i =>
                    ((pending_same_cred s q.credentialId).getD i default).tradeNo)))
                (idxs.map fun i =>
                  ((pending_same_cred s q.credentialId).getD i default).oid) resps,
                tn ∈ idxs.map fun i =>
                  ((pending_same_cred s q.credentialId).getD i default).tradeNo)
            | none =>
              (log_balance_query s b .noMatch none, false)) := by
  rw [check_payment, h]

/-- C9.  CheckPayment non-matching paths: an unknown `trade_no` returns false
and leaves the state unchanged; a PAID order (status 1) returns true with no
side effects; an EXPIRED order (status 2) returns false; and when the wallet
balance query raises, a PENDING order gets a `balance_logs` row recording the
query failure, the call returns false and no order is changed. -/
theorem checkPayment_nonmatching_paths (s : DBState) (tn : String) (now : ℕ)
    (resps : ℕ → Option HttpResp) (bal : Except Unit ℚ) :
    (s.orders.find? (fun o => o.tradeNo == tn) = none →
      check_payment s tn bal now resps = (s, false)) ∧
    (∀ q, s.orders.find? (fun o => o.tradeNo == tn) = some q →
      (q.status = 1 → check_payment s tn bal now resps = (s, true)) ∧
      (q.status = 2 → check_payment s tn bal now resps = (s, false)) ∧
      (q.status = 0 → check_payment s tn (.error ()) now resps =
        ({ s with balanceLogs := s.balanceLogs ++ [⟨0, .queryFailure, none⟩] }, false))) := by
  constructor
  · intro h
    rw [check_payment, h]
  · intro q hq
    refine ⟨fun h1 => ?_, fun h2 => ?_, fun h0 => ?_⟩
    · rw [check_payment_found hq, if_pos h1]
    · rw [check_payment_found hq, if_neg (by omega), if_pos (by omega)]
    · rw [check_payment_found hq, if_neg (by omega), if_neg (by omega)]
      rfl

/-- `find?` over `List.range n` returns the least index satisfying the
predicate. -/
theorem find?_range_first {n : ℕ} {p : ℕ → Bool} {i : ℕ}
    (h : (List.range n).find? p = some i) :
    p i = true ∧ i < n ∧ ∀ j < i, p j = false := by
  induction n with
  | zero => simp [List.range_zero] at h
  | succ n ih =>
    rw [List.range_succ, List.find?_append] at h
    cases hfind : (List.range n).find? p with
    | some k =>
      rw [hfind] at h
      have h2 : some k = some i := h
      obtain rfl : k = i := by injection h2
      obtain ⟨h1, h2, h3⟩ := ih hfind
      exact ⟨h1, by omega, h3⟩
    | none =>
      rw [hfind] at h
      replace h : List.find? p [n] = some i := h
      have hall := List.find?_eq_none.mp hfind
      by_cases hp : p n = true
      · rw [List.find?_cons_of_pos _ hp] at h
        obtain rfl : n = i := by injection h
        refine ⟨hp, by omega, fun j hj => ?_⟩
        have := hall j (List.mem_range.mpr hj)
        simpa using this
      · rw [List.find?_cons_of_neg _ (by simpa using hp)] at h
        cases h

theorem mem_occupied_iff {orders : List OrderRec} {orig q : ℚ} :
    q ∈ occupied_moneys orders orig ↔
      ∃ o ∈ orders, o.status = 0 ∧ orig ≤ o.money ∧ o.money ≤ orig + 99/100 ∧
        o.money = q := by
  constructor
  · intro hq
    obtain ⟨o, ho, rfl⟩ := List.mem_map.mp hq
    have hf := List.mem_filter.mp ho
    have hb := hf.2
    simp only [Bool.and_eq_true, beq_iff_eq, decide_eq_true_eq] at hb
    exact ⟨o, hf.1, hb.1.1, hb.1.2, hb.2, rfl⟩
  · rintro ⟨o, ho, h0, h1, h2, rfl⟩
    exact List.mem_map.mpr ⟨o, List.mem_filter.mpr ⟨ho, by simp [h0, h1, h2]⟩, rfl⟩

/-- Characterization of a successful `adjust_amount` on a two-decimal original
amount: the result is `orig + k/100` for some `k < 100`, it is not the `money`
of any PENDING order of the whole table (no credential restriction), and every
smaller candidate is the `money` of some PENDING order. -/
theorem adjust_amount_ok {orders : List OrderRec} {orig m : ℚ} (h2dp : TwoDp orig)
    (h : adjust_amount orders orig = .ok m) :
    ∃ k : ℕ, k < 100 ∧ m = orig + (k : ℚ) / 100 ∧
      (∀ o ∈ orders, o.status = 0 → o.money ≠ m) ∧
      (∀ j < k, ∃ o ∈ orders, o.status = 0 ∧ o.money = orig + (j : ℚ) / 100) := by
  rw [adjust_amount] at h
  cases hfind : (List.range 100).find? (fun (i : ℕ) =>
      decide (quantize2 (orig + (i : ℚ) / 100) ∉ occupied_moneys orders orig)) with
  | none => rw [hfind] at h; cases h
  | some i =>
    rw [hfind] at h
    replace h : (Except.ok (quantize2 (orig + (i : ℚ) / 100)) : Except Unit ℚ) =
      Except.ok m := h
    obtain ⟨hp, hlt, hmin⟩ := find?_range_first hfind
    have hq2 : ∀ j : ℕ, quantize2 (orig + (j : ℚ) / 100) = orig + (j : ℚ) / 100 :=
      fun j => quantize2_eq_self (h2dp.add_cent j)
    rw [hq2 i] at h hp
    simp only [Except.ok.injEq] at h
    subst h
    simp only [decide_eq_true_eq] at hp
    refine ⟨i, hlt, rfl, ?_, ?_⟩
    · intro o ho h0 hmoney
      apply hp
      rw [mem_occupied_iff]
      have hci : (i : ℚ) ≤ 99 := by exact_mod_cast (by omega : i ≤ 99)
      have hnn : (0 : ℚ) ≤ (i : ℚ) := by positivity
      refine ⟨o, ho, h0, ?_, ?_, hmoney⟩
      · rw [hmoney]; linarith
      · rw [hmoney]; linarith
    · intro j hj
      have := hmin j hj
      rw [hq2 j] at this
      simp only [decide_eq_false_iff_not, not_not] at this
      obtain ⟨o, ho, h0, _, _, hm⟩ := mem_occupied_iff.mp this
      exact ⟨o, ho, h0, hm⟩

/-- `adjust_amount` fails (AmountConflict) only when every one of the 100
candidate amounts is the `money` of some PENDING order. -/
theorem adjust_amount_conflict {orders : List OrderRec} {orig : ℚ} (h2dp : TwoDp orig)
    (h : adjust_amount orders orig = .error ()) :
    ∀ k : ℕ, k < 100 → ∃ o ∈ orders, o.status = 0 ∧ o.money = orig + (k : ℚ) / 100 := by
  rw [adjust_amount] at h
  cases hfind : (List.range 100).find? (fun (i : ℕ) =>
      decide (quantize2 (orig + (i : ℚ) / 100) ∉ occupied_moneys orders orig)) with
  | some i => rw [hfind] at h; cases h
  | none =>
    intro k hk
    have hall := List.find?_eq_none.mp hfind k (List.mem_range.mpr hk)
    rw [quantize2_eq_self (h2dp.add_cent k)] at hall
    simp only [decide_eq_true_eq, not_not] at hall
    obtain ⟨o, ho, h0, _, _, hm⟩ := mem_occupied_iff.mp hall
    exact ⟨o, ho, h0, hm⟩

/-! ## Row-level effect of the operations

`RowStep o o'` relates an order row before and after one operation: ids and
amounts are immutable, PAID (1) and EXPIRED (2) are terminal, and the only
changes of `status` are 0→1 and 0→2. -/

/-- One operation's effect on one order row. -/
def RowStep (o o' : OrderRec) : Prop :=
  o'.oid = o.oid ∧ o'.money = o.money ∧
  (o.status = 1 ∨ o.status = 2 → o'.status = o.status) ∧
  (o'.status ≠ o.status → o.status = 0 ∧ (o'.status = 1 ∨ o'.status = 2))

/-- One operation's effect on the whole orders table (no inserts). -/
def OrdersStep (l l' : List OrderRec) : Prop := List.Forall₂ RowStep l l'

theorem RowStep.selfStep (o : OrderRec) : RowStep o o :=
  ⟨Eq.refl _, Eq.refl _, fun _ => Eq.refl _, fun h => absurd (Eq.refl _) h⟩

theorem RowStep.compRow {o o' o'' : OrderRec} (h1 : RowStep o o') (h2 : RowStep o' o'') :
    RowStep o o'' := by
  obtain ⟨hi1, hm1, hs1, ht1⟩ := h1
  obtain ⟨hi2, hm2, hs2, ht2⟩ := h2
  refine ⟨hi2.trans hi1, hm2.trans hm1, ?_, ?_⟩
  · intro h
    rw [hs2 (by rw [hs1 h]; exact h), hs1 h]
  · intro hne
    by_cases h01 : o'.status = o.status
    · rw [← h01] at hne ⊢
      obtain ⟨ha, hb⟩ := ht2 hne
      exact ⟨h01 ▸ ha, hb⟩
    · obtain ⟨ha, hb⟩ := ht1 h01
      rw [hs2 hb] at hne ⊢
      exact ⟨ha, hb⟩

theorem OrdersStep.selfSteps (l : List OrderRec) : OrdersStep l l :=
  List.forall₂_same.mpr fun o _ => RowStep.selfStep o

theorem OrdersStep.compSteps {l l' l'' : List OrderRec} (h1 : OrdersStep l l')
    (h2 : OrdersStep l' l'') : OrdersStep l l'' := by
  induction h1 generalizing l'' with
  | nil => cases h2; exact List.Forall₂.nil
  | cons h hs ih =>
    cases h2 with
    | cons h' hs' => exact List.Forall₂.cons (h.compRow h') (ih hs')

theorem OrdersStep.of_map {l : List OrderRec} {f : OrderRec → OrderRec}
    (hf : ∀ o ∈ l, RowStep o (f o)) : OrdersStep l (l.map f) :=
  List.forall₂_map_right_iff.mpr (List.forall₂_same.mpr hf)

theorem OrdersStep.map_oid {l l' : List OrderRec} (h : OrdersStep l l') :
    l'.map (fun o => o.oid) = l.map (fun o => o.oid) := by
  induction h with
  | nil => rfl
  | cons hr _ ih => simp [ih, hr.1]

/-- The PENDING-row money list after one operation is a sublist of the one
before: a row that ends PENDING was PENDING with the same money. -/
theorem OrdersStep.pending_money_sublist {l l' : List OrderRec} (h : OrdersStep l l') :
    ((l'.filter fun o => o.status == 0).map fun o => o.money).Sublist
      ((l.filter fun o => o.status == 0).map fun o => o.money) := by
  induction h with
  | nil => simp
  | cons hr hs ih =>
    rename_i o o' l l'
    by_cases h0' : o'.status = 0
    · have h0 : o.status = 0 := by
        by_cases he : o'.status = o.status
        · omega
        · rcases (hr.2.2.2 he).2 with h | h <;> omega
      rw [List.filter_cons_of_pos (by simpa using h0'),
        List.filter_cons_of_pos (by simpa using h0)]
      simp only [List.map_cons, hr.2.1]
      exact List.Sublist.cons₂ _ ih
    · rw [List.filter_cons_of_neg (by simpa using h0')]
      by_cases h0 : o.status = 0
      · rw [List.filter_cons_of_pos (by simpa using h0)]
        exact ih.trans (List.sublist_cons_self _ _)
      · rw [List.filter_cons_of_neg (by simpa using h0)]
        exact ih

/-- Equality of all order-row fields the reconciler and the order engine read,
i.e. everything except the callback bookkeeping columns. -/
def coreEq (o o' : OrderRec) : Prop :=
  o'.oid = o.oid ∧ o'.tradeNo = o.tradeNo ∧ o'.merchantId = o.merchantId ∧
  o'.credentialId = o.credentialId ∧ o'.money = o.money ∧ o'.status = o.status ∧
  o'.baseBalance = o.baseBalance ∧ o'.confirmBalance = o.confirmBalance ∧
  o'.createdAt = o.createdAt

theorem coreEq.selfCore (o : OrderRec) : coreEq o o :=
  ⟨rfl, rfl, rfl, rfl, rfl, rfl, rfl, rfl, rfl⟩

theorem coreEq.compCore {o o' o'' : OrderRec} (h1 : coreEq o o') (h2 : coreEq o' o'') :
    coreEq o o'' := by
  obtain ⟨a1, b1, c1, d1, e1, f1, g1, h1', i1⟩ := h1
  obtain ⟨a2, b2, c2, d2, e2, f2, g2, h2', i2⟩ := h2
  exact ⟨a2.trans a1, b2.trans b1, c2.trans c1, d2.trans d1, e2.trans e1,
    f2.trans f1, g2.trans g1, h2'.trans h1', i2.trans i1⟩

theorem coreEq.rowStep {o o' : OrderRec} (h : coreEq o o') : RowStep o o' :=
  ⟨h.1, h.2.2.2.2.1, fun _ => h.2.2.2.2.2.1, fun hne => absurd h.2.2.2.2.2.1 hne⟩

/-- Callback tables: `Forall₂ coreEq` of the order rows across an operation. -/
def OrdersCore (l l' : List OrderRec) : Prop := List.Forall₂ coreEq l l'

theorem OrdersCore.selfCores (l : List OrderRec) : OrdersCore l l :=
  List.forall₂_same.mpr fun o _ => coreEq.selfCore o

theorem OrdersCore.compCores {l l' l'' : List OrderRec} (h1 : OrdersCore l l')
    (h2 : OrdersCore l' l'') : OrdersCore l l'' := by
  induction h1 generalizing l'' with
  | nil => cases h2; exact List.Forall₂.nil
  | cons h hs ih =>
    cases h2 with
    | cons h' hs' => exact List.Forall₂.cons (h.compCore h') (ih hs')

theorem OrdersCore.ordersStep {l l' : List OrderRec} (h : OrdersCore l l') :
    OrdersStep l l' := by
  induction h with
  | nil => exact List.Forall₂.nil
  | cons hr _ ih => exact List.Forall₂.cons hr.rowStep ih

theorem update_callback_status_core (s : DBState) (oid st att : ℕ) :
    OrdersCore s.orders (update_callback_status s oid st att).orders := by
  apply List.forall₂_map_right_iff.mpr
  apply List.forall₂_same.mpr
  intro o _
  by_cases h : o.oid = oid <;>
    simp [update_callback_status, h, coreEq]

theorem send_notify_no_order {s : DBState} {oid : ℕ} (resp : Option HttpResp)
    (h : s.orders.find? (fun x => x.oid == oid) = none) :
    send_notify s oid resp = (s, false) := by
  rw [send_notify, h]

theorem send_notify_found {s : DBState} {oid : ℕ} {o : OrderRec}
    (resp : Option HttpResp)
    (hfind : s.orders.find? (fun x => x.oid == oid) = some o) :
    send_notify s oid resp =
      (match s.merchants.find? (fun x => x.mid == o.merchantId) with
      | none => (s, false)
      | some _ =>
        if urlBlank o.notifyUrl then (s, false)
        else
          let url := o.notifyUrl.getD ""
          let attempts := o.callbackAttempts + 1
          let s1 := update_callback_status s oid 3 attempts
          let ok := notifySuccess resp
          let s2 := log_callback s1 oid attempts url (notifyLoggedStatus resp)
            (notifyLoggedBody resp)
          let s3 :=
            if ok then update_callback_status s2 oid 1 attempts
            else if 6 ≤ attempts then update_callback_status s2 oid 2 attempts
            else update_callback_status s2 oid 3 attempts
          (s3, ok)) := by
  rw [send_notify, hfind]

theorem send_notify_core (s : DBState) (oid : ℕ) (resp : Option HttpResp) :
    OrdersCore s.orders (send_notify s oid resp).1.orders := by
  cases hfind : s.orders.find? (fun x => x.oid == oid) with
  | none => rw [send_notify_no_order resp hfind]; exact OrdersCore.selfCores _
  | some o =>
    rw [send_notify_found resp hfind]
    cases hm : s.merchants.find? (fun x => x.mid == o.merchantId) with
    | none => exact OrdersCore.selfCores _
    | some m =>
      by_cases hurl : urlBlank o.notifyUrl = true
      · simp only [hurl, if_true]
        exact OrdersCore.selfCores _
      · simp only [hurl, if_false, Bool.false_eq_true]
        have h1 := update_callback_status_core s oid 3 (o.callbackAttempts + 1)
        by_cases hok : notifySuccess resp = true
        · simp only [hok, if_true]
          exact h1.compCores (update_callback_status_core _ oid 1 _)
        · simp only [hok, Bool.false_eq_true, if_false]
          by_cases h6 : 6 ≤ o.callbackAttempts + 1
          · simp only [h6, if_true]
            exact h1.compCores (update_callback_status_core _ oid 2 _)
          · simp only [h6, if_false]
            exact h1.compCores (update_callback_status_core _ oid 3 _)

theorem retry_notify_found {s : DBState} {oid attempt : ℕ} {o : OrderRec}
    (resp : Option HttpResp) (hb : ¬ (attempt < 1 ∨ 5 < attempt))
    (hfind : s.orders.find? (fun x => x.oid == oid) = some o) :
    retry_notify s oid attempt resp =
      (if o.callbackStatus = 1 then s
      else match s.merchants.find? (fun x => x.mid == o.merchantId) with
        | none => s
        | some _ =>
          if urlBlank o.notifyUrl then s
          else
            let url := o.notifyUrl.getD ""
            let total := attempt + 1
            let s1 := update_callback_status s oid 3 total
            let ok := notifySuccess resp
            let s2 := log_callback s1 oid total url (notifyLoggedStatus resp)
              (notifyLoggedBody resp)
            if ok then update_callback_status s2 oid 1 total
            else if 5 ≤ attempt then update_callback_status s2 oid 2 total
            else update_callback_status s2 oid 3 total) := by
  rw [retry_notify, if_neg hb, hfind]

theorem retry_notify_core (s : DBState) (oid attempt : ℕ) (resp : Option HttpResp) :
    OrdersCore s.orders (retry_notify s oid attempt resp).orders := by
  by_cases hb : attempt < 1 ∨ 5 < attempt
  · rw [retry_notify, if_pos hb]; exact OrdersCore.selfCores _
  · cases hfind : s.orders.find? (fun x => x.oid == oid) with
    | none =>
      rw [retry_notify, if_neg hb, hfind]
      exact OrdersCore.selfCores _
    | some o =>
      rw [retry_notify_found resp hb hfind]
      by_cases hcs : o.callbackStatus = 1
      · rw [if_pos hcs]; exact OrdersCore.selfCores _
      · rw [if_neg hcs]
        cases hm : s.merchants.find? (fun x => x.mid == o.merchantId) with
        | none => exact OrdersCore.selfCores _
        | some m =>
          by_cases hurl : urlBlank o.notifyUrl = true
          · simp only [hurl, if_true]; exact OrdersCore.selfCores _
          · simp only [hurl, if_false, Bool.false_eq_true]
            have h1 := update_callback_status_core s oid 3 (attempt + 1)
            by_cases hok : notifySuccess resp = true
            · simp only [hok, if_true]
              exact h1.compCores (update_callback_status_core _ oid 1 _)
            · simp only [hok, Bool.false_eq_true, if_false]
              by_cases h5 : 5 ≤ attempt
              · simp only [h5, if_true]
                exact h1.compCores (update_callback_status_core _ oid 2 _)
              · simp only [h5, if_false]
                exact h1.compCores (update_callback_status_core _ oid 3 _)

theorem foldl_send_notify_core (resps : ℕ → Option HttpResp) :
    ∀ (ps : List (ℕ × ℕ)) (s : DBState),
      OrdersCore s.orders
        ((ps.foldl (fun st p => (send_notify st p.2 (resps p.1)).1) s)).orders := by
  intro ps
  induction ps with
  | nil => intro s; exact OrdersCore.selfCores _
  | cons p ps ih =>
    intro s
    exact (send_notify_core s p.2 (resps p.1)).compCores (ih _)

theorem trigger_callbacks_core (s : DBState) (ids : List ℕ)
    (resps : ℕ → Option HttpResp) :
    OrdersCore s.orders (trigger_callbacks s ids resps).orders :=
  foldl_send_notify_core resps ids.enum s

theorem log_balance_query_orders (s : DBState) (a : ℚ) (mr : MatchResult)
    (tns : Option (List String)) : (log_balance_query s a mr tns).orders = s.orders := rfl

theorem expire_orders_step (s : DBState) (now : ℕ) :
    OrdersStep s.orders (expire_orders s now).orders := by
  apply OrdersStep.of_map
  intro o _
  by_cases h : o.status = 0 ∧ o.createdAt < now - 600
  · simp only [if_pos h]
    refine ⟨rfl, rfl, fun h1 => ?_, fun _ => ⟨h.1, Or.inr rfl⟩⟩
    have h0 := h.1
    rcases h1 with h1 | h1 <;> omega
  · simp only [if_neg h]
    exact RowStep.selfStep o

theorem poller_expire_step (s : DBState) (tn : String) (now : ℕ) :
    OrdersStep s.orders (poller_expire_order s tn now).orders := by
  apply OrdersStep.of_map
  intro o _
  by_cases h : o.tradeNo = tn ∧ o.status = 0
  · simp only [if_pos h]
    refine ⟨rfl, rfl, fun h1 => ?_, fun _ => ⟨h.2, Or.inr rfl⟩⟩
    have h0 := h.2
    rcases h1 with h1 | h1 <;> omega
  · simp only [if_neg h]
    exact RowStep.selfStep o

theorem update_base_balances_step (s : DBState) (balOf : Option ℕ → Option ℚ) :
    OrdersStep s.orders (update_base_balances s balOf).orders := by
  apply OrdersStep.of_map
  intro o _
  by_cases h : o.status = 0
  · cases balOf o.credentialId <;> simp [RowStep, h]
  · simp [RowStep, h]

/-- Uniqueness of rows under a duplicate-free id column. -/
theorem eq_of_oid_nodup {l : List OrderRec} (hnd : (l.map fun o => o.oid).Nodup)
    {o o' : OrderRec} (ho : o ∈ l) (ho' : o' ∈ l) (h : o.oid = o'.oid) : o = o' :=
  List.inj_on_of_nodup_map hnd ho ho' h

theorem mem_get_pending_orders {s : DBState} {o : OrderRec} :
    o ∈ get_pending_orders s ↔ o ∈ s.orders ∧ o.status = 0 := by
  rw [get_pending_orders]
  rw [(List.perm_insertionSort _ _).mem_iff, List.mem_filter]
  simp

theorem mem_pending_same_cred {s : DBState} {cid : Option ℕ} {o : OrderRec} :
    o ∈ pending_same_cred s cid ↔ o ∈ s.orders ∧ o.status = 0 ∧ o.credentialId = cid := by
  rw [pending_same_cred, List.mem_filter, mem_get_pending_orders]
  simp [and_assoc]

theorem admin_cancel_found {s : DBState} {tn : String} {q : OrderRec}
    (h : s.orders.find? (fun o => o.tradeNo == tn) = some q) (now : ℕ) :
    admin_cancel s tn now =
      (if q.status ≠ 0 then (s, false)
      else
        ({ s with orders := s.orders.map fun o =>
            if o.oid = q.oid then { o with status := 2, expiredAt := some now } else o },
          true)) := by
  rw [admin_cancel, h]

theorem admin_cancel_step (s : DBState) (tn : String) (now : ℕ)
    (hnd : (s.orders.map fun o => o.oid).Nodup) :
    OrdersStep s.orders (admin_cancel s tn now).1.orders := by
  cases hfind : s.orders.find? (fun o => o.tradeNo == tn) with
  | none => rw [admin_cancel, hfind]; exact OrdersStep.selfSteps _
  | some q =>
    rw [admin_cancel_found hfind now]
    by_cases h0 : q.status ≠ 0
    · rw [if_pos h0]; exact OrdersStep.selfSteps _
    · rw [if_neg h0]
      push_neg at h0
      apply OrdersStep.of_map
      intro o ho
      by_cases hoid : o.oid = q.oid
      · have : o = q := eq_of_oid_nodup hnd ho (List.mem_of_find?_eq_some hfind) hoid
        subst this
        simp only [if_pos hoid]
        exact ⟨rfl, rfl, fun h1 => by rcases h1 with h1 | h1 <;> omega,
          fun _ => ⟨h0, Or.inr rfl⟩⟩
      · simp only [if_neg hoid]
        exact RowStep.selfStep o

theorem mark_orders_paid_step {s : DBState} {ids : List ℕ} (b : ℚ) (now : ℕ)
    (hnd : (s.orders.map fun o => o.oid).Nodup)
    (hids : ∀ i ∈ ids, ∃ p ∈ s.orders, p.oid = i ∧ p.status = 0) :
    OrdersStep s.orders (mark_orders_paid s ids b now).orders := by
  rw [mark_orders_paid]
  by_cases hnil : ids = []
  · rw [if_pos hnil]; exact OrdersStep.selfSteps _
  · rw [if_neg hnil]
    apply OrdersStep.of_map
    intro o ho
    by_cases hmem : o.oid ∈ ids
    · obtain ⟨p, hp, hpoid, hp0⟩ := hids _ hmem
      have heq : o = p := eq_of_oid_nodup hnd ho hp hpoid.symm
      subst heq
      simp only [if_pos hmem]
      exact ⟨rfl, rfl, fun h1 => by rcases h1 with h1 | h1 <;> omega,
        fun _ => ⟨hp0, Or.inl rfl⟩⟩
    · simp only [if_neg hmem]
      exact RowStep.selfStep o

theorem check_payment_found_ok {s : DBState} {tn : String} {q : OrderRec}
    (h : s.orders.find? (fun o => o.tradeNo == tn) = some q)
    (b : ℚ) (now : ℕ) (resps : ℕ → Option HttpResp) :
    check_payment s tn (.ok b) now resps =
      (if q.status = 1 then (s, true)
      else if q.status ≠ 0 then (s, false)
      else if get_pending_orders s = [] then
        (log_balance_query s b .noPending none, false)
      else if pending_same_cred s q.credentialId = [] then
        (log_balance_query s b .noSameCredPending none, false)
      else if b - ((pending_same_cred s q.credentialId).headD default).baseBalance ≤ 0 then
        (log_balance_query s b .noPositiveChange none, false)
      else
        match subset_sum_dfs
            ((pending_same_cred s q.credentialId).map fun o => toCents o.money)
            (toCents (b - ((pending_same_cred s q.credentialId).headD
              default).baseBalance)) with
        | some idxs =>
          (trigger_callbacks
            (log_balance_query
              (mark_orders_paid s
                (idxs.map fun i =>
                  ((pending_same_cred s q.credentialId).getD i default).oid) b now)
              b .matchSuccess
              (some (idxs.map fun i =>
                ((pending_same_cred s q.credentialId).getD i default).tradeNo)))
            (idxs.map fun i =>
              ((pending_same_cred s q.credentialId).getD i default).oid) resps,
            tn ∈ idxs.map fun i =>
              ((pending_same_cred s q.credentialId).getD i default).tradeNo)
        | none =>
          (log_balance_query s b .noMatch none, false)) := by
  rw [check_payment, h]

theorem check_payment_found_err {s : DBState} {tn : String} {q : OrderRec}
    (h : s.orders.find? (fun o => o.tradeNo == tn) = some q)
    (e : Unit) (now : ℕ) (resps : ℕ → Option HttpResp) :
    check_payment s tn (.error e) now resps =
      (if q.status = 1 then (s, true)
      else if q.status ≠ 0 then (s, false)
      else (log_balance_query s 0 .queryFailure none, false)) := by
  rw [check_payment, h]

theorem check_payment_step (s : DBState) (tn : String) (bal : Except Unit ℚ)
    (now : ℕ) (resps : ℕ → Option HttpResp)
    (hnd : (s.orders.map fun o => o.oid).Nodup) :
    OrdersStep s.orders (check_payment s tn bal now resps).1.orders := by
  cases hfind : s.orders.find? (fun o => o.tradeNo == tn) with
  | none => rw [check_payment, hfind]; exact OrdersStep.selfSteps _
  | some q =>
    cases bal with
    | error e =>
      rw [check_payment_found_err hfind]
      by_cases h1 : q.status = 1
      · rw [if_pos h1]; exact OrdersStep.selfSteps _
      · rw [if_neg h1]
        by_cases h0 : q.status ≠ 0
        · rw [if_pos h0]; exact OrdersStep.selfSteps _
        · rw [if_neg h0]; exact OrdersStep.selfSteps _
    | ok b =>
      rw [check_payment_found_ok hfind]
      by_cases h1 : q.status = 1
      · rw [if_pos h1]; exact OrdersStep.selfSteps _
      · rw [if_neg h1]
        by_cases h0 : q.status ≠ 0
        · rw [if_pos h0]; exact OrdersStep.selfSteps _
        · rw [if_neg h0]
          by_cases hemp : get_pending_orders s = []
          · rw [if_pos hemp]; exact OrdersStep.selfSteps _
          · rw [if_neg hemp]
            by_cases hpe : pending_same_cred s q.credentialId = []
            · rw [if_pos hpe]; exact OrdersStep.selfSteps _
            · rw [if_neg hpe]
              by_cases hdiff : b - ((pending_same_cred s q.credentialId).headD
                  default).baseBalance ≤ 0
              · rw [if_pos hdiff]; exact OrdersStep.selfSteps _
              · rw [if_neg hdiff]
                cases hdfs : subset_sum_dfs
                    ((pending_same_cred s q.credentialId).map fun o => toCents o.money)
                    (toCents (b - ((pending_same_cred s q.credentialId).headD
                      default).baseBalance)) with
                | none => exact OrdersStep.selfSteps _
                | some idxs =>
                  have hbounds := (choice_enum_elim (subset_sum_dfs_sound hdfs)).2.1
                  have hids : ∀ i ∈ idxs.map (fun i =>
                      ((pending_same_cred s q.credentialId).getD i default).oid),
                      ∃ p ∈ s.orders, p.oid = i ∧ p.status = 0 := by
                    intro i hi
                    obtain ⟨j, hj, rfl⟩ := List.mem_map.mp hi
                    have hjlt : j < (pending_same_cred s q.credentialId).length := by
                      have := hbounds j hj
                      simpa using this
                    have hmem : (pending_same_cred s q.credentialId).getD j default ∈
                        pending_same_cred s q.credentialId := by
                      rw [List.getD_eq_getElem _ _ hjlt]
                      exact List.getElem_mem _
                    have := mem_pending_same_cred.mp hmem
                    exact ⟨_, this.1, rfl, this.2.1⟩
                  have hmark := mark_orders_paid_step b now hnd hids
                  show OrdersStep s.orders (trigger_callbacks _ _ resps).orders
                  exact hmark.compSteps (trigger_callbacks_core
                    (log_balance_query
                      (mark_orders_paid s
                        (idxs.map fun i =>
                          ((pending_same_cred s q.credentialId).getD i default).oid) b now)
                      b .matchSuccess
                      (some (idxs.map fun i =>
                        ((pending_same_cred s q.credentialId).getD i default).tradeNo)))
                    (idxs.map fun i =>
                      ((pending_same_cred s q.credentialId).getD i default).oid)
                    resps).ordersStep

/-- The `orders` primary-key column has no duplicates. -/
def OidsNodup (s : DBState) : Prop := (s.orders.map fun o => o.oid).Nodup

/-- Global amount uniqueness: no two PENDING rows of the whole `orders` table
share `money`. -/
def PendingMoneyUnique (s : DBState) : Prop :=
  ((s.orders.filter fun o => o.status == 0).map fun o => o.money).Nodup

theorem create_order_ok_elim {s : DBState} {p : CreateParams}
    {resolved : Option (Option ℕ)} {balRes : Option ℚ} {tradeNo : String} {now : ℕ}
    {s' : DBState} {o : OrderRec}
    (h : create_order s p resolved balRes tradeNo now = .ok (s', o)) :
    s'.orders = s.orders ++ [o] ∧ s'.merchants = s.merchants ∧
    o.oid = next_oid s ∧ o.status = 0 ∧ o.createdAt = now ∧
    o.originalMoney = quantize2 p.moneyRaw ∧
    adjust_amount s.orders (quantize2 p.moneyRaw) = .ok o.money := by
  rw [create_order.eq_def] at h
  split at h
  · cases h
  · split at h
    · cases h
    · split at h
      · cases h
      · dsimp only [] at h
        split at h
        · cases h
        · rename_i adjusted hadj
          simp only [Except.ok.injEq, Prod.mk.injEq] at h
          obtain ⟨hs', ho⟩ := h
          subst hs'
          subst ho
          exact ⟨rfl, rfl, rfl, rfl, rfl, rfl, hadj⟩

theorem le_foldr_max {l : List ℕ} {x : ℕ} (hx : x ∈ l) : x ≤ l.foldr max 0 := by
  induction l with
  | nil => cases hx
  | cons a l ih =>
    rcases List.mem_cons.mp hx with rfl | hx'
    · exact le_max_left _ _
    · exact le_trans (ih hx') (le_max_right _ _)

/-- Both table invariants hold in every reachable state: the primary-key
column is duplicate-free, and no two PENDING rows share `money` (globally,
across all credentials). -/
theorem reachable_invariant {s : DBState} (h : Reachable s) :
    OidsNodup s ∧ PendingMoneyUnique s := by
  induction h with
  | refl => exact ⟨List.nodup_nil, List.nodup_nil⟩
  | tail hsteps hstep ih =>
    obtain ⟨hnd, hpm⟩ := ih
    cases hstep with
    | create p resolved balRes tradeNo now s' o hco =>
      obtain ⟨hord, _, hoid, hst, _, _, hadj⟩ := create_order_ok_elim hco
      constructor
      · rw [OidsNodup, hord, List.map_append]
        refine List.Nodup.append hnd (by simp) ?_
        intro x hx hx2
        simp only [List.map_cons, List.map_nil, List.mem_singleton] at hx2
        subst hx2
        have hle := le_foldr_max hx
        rw [hoid] at hle
        simp only [next_oid] at hle
        omega
      · rw [PendingMoneyUnique, hord, List.filter_append, List.map_append]
        have hofilter : (List.filter (fun o => o.status == 0) [o]) = [o] := by
          simp [hst]
        rw [hofilter]
        refine List.Nodup.append hpm (by simp) ?_
        intro x hx hx2
        simp only [List.map_cons, List.map_nil, List.mem_singleton] at hx2
        subst hx2
        obtain ⟨k, hk, hm, hnotin, _⟩ := adjust_amount_ok (quantize2_twoDp p.moneyRaw) hadj
        obtain ⟨p', hp', hpmem⟩ := List.mem_map.mp hx
        have hpf := List.mem_filter.mp hp'
        exact hnotin p' hpf.1 (by simpa using hpf.2) hpmem
    | createFail p resolved balRes tradeNo now e hco => exact ⟨hnd, hpm⟩
    | check tn bal now resps =>
      refine ⟨?_, ?_⟩
      · rw [OidsNodup, (check_payment_step _ tn bal now resps hnd).map_oid]; exact hnd
      · exact (check_payment_step _ tn bal now resps hnd).pending_money_sublist.nodup hpm
    | expire now =>
      refine ⟨?_, ?_⟩
      · rw [OidsNodup, (expire_orders_step _ now).map_oid]; exact hnd
      · exact (expire_orders_step _ now).pending_money_sublist.nodup hpm
    | pollerExpire tn now =>
      refine ⟨?_, ?_⟩
      · rw [OidsNodup, (poller_expire_step _ tn now).map_oid]; exact hnd
      · exact (poller_expire_step _ tn now).pending_money_sublist.nodup hpm
    | cancel tn now =>
      refine ⟨?_, ?_⟩
      · rw [OidsNodup, (admin_cancel_step _ tn now hnd).map_oid]; exact hnd
      · exact (admin_cancel_step _ tn now hnd).pending_money_sublist.nodup hpm
    | notify oid resp =>
      refine ⟨?_, ?_⟩
      · rw [OidsNodup, ((send_notify_core _ oid resp).ordersStep).map_oid]; exact hnd
      · exact ((send_notify_core _ oid resp).ordersStep).pending_money_sublist.nodup hpm
    | retry oid attempt resp =>
      refine ⟨?_, ?_⟩
      · rw [OidsNodup, ((retry_notify_core _ oid attempt resp).ordersStep).map_oid]; exact hnd
      · exact ((retry_notify_core _ oid attempt resp).ordersStep).pending_money_sublist.nodup hpm
    | rebase balOf =>
      refine ⟨?_, ?_⟩
      · rw [OidsNodup, (update_base_balances_step _ balOf).map_oid]; exact hnd
      · exact (update_base_balances_step _ balOf).pending_money_sublist.nodup hpm
    | merchantsAdmin ms => exact ⟨hnd, hpm⟩

/-- Converse of `find?_range_first`: the least index satisfying the predicate
is what `find?` returns. -/
theorem find?_range_eq_some_of {n : ℕ} {p : ℕ → Bool} {i : ℕ} (hi : i < n)
    (hp : p i = true) (hmin : ∀ j < i, p j = false) :
    (List.range n).find? p = some i := by
  induction n with
  | zero => omega
  | succ n ih =>
    rw [List.range_succ, List.find?_append]
    by_cases hin : i < n
    · rw [ih hin]
      rfl
    · have hien : i = n := by omega
      subst hien
      have hnone : (List.range i).find? p = none :=
        List.find?_eq_none.mpr fun j hj => by
          have := hmin j (List.mem_range.mp hj)
          simp [this]
      rw [hnone, List.find?_cons_of_pos _ hp]
      rfl

/-- The row `create_order` inserts, given the adjusted amount. -/
def createdRow (s : DBState) (p : CreateParams) (credId : Option ℕ)
    (balRes : Option ℚ) (tradeNo : String) (now : ℕ) (adjusted : ℚ) : OrderRec :=
  { oid := next_oid s, tradeNo := tradeNo, outTradeNo := p.outTradeNo,
    merchantId := p.pid, credentialId := credId, otype := p.otype, oname := p.oname,
    originalMoney := quantize2 p.moneyRaw, money := adjusted,
    adjustAmount := adjusted - quantize2 p.moneyRaw, status := 0,
    notifyUrl := p.notifyUrl, returnUrl := p.returnUrl, param := p.param,
    baseBalance := balRes.getD 0, confirmBalance := none, callbackStatus := 0,
    callbackAttempts := 0, createdAt := now, paidAt := none, expiredAt := none }

/-- Evaluation form of `create_order` once the merchant and credential checks
pass: the result is decided by `adjust_amount`. -/
theorem create_order_eq_of_adjust {s : DBState} {p : CreateParams} {m : MerchantRec}
    (hm : s.merchants.find? (fun x => x.mid == p.pid) = some m) (hact : m.active = 1)
    (credId : Option ℕ) (balRes : Option ℚ) (tradeNo : String) (now : ℕ) :
    create_order s p (some credId) balRes tradeNo now =
      match adjust_amount s.orders (quantize2 p.moneyRaw) with
      | .error _ => .error .amountConflict
      | .ok adjusted =>
        .ok ({ s with orders :=
            s.orders ++ [createdRow s p credId balRes tradeNo now adjusted] },
          createdRow s p credId balRes tradeNo now adjusted) := by
  rw [create_order.eq_def, hm]
  show (if m.active ≠ 1 then Except.error CreateErr.merchantInactive
    else
      match adjust_amount s.orders (quantize2 p.moneyRaw) with
      | .error _ => .error .amountConflict
      | .ok adjusted =>
        .ok ({ s with orders :=
            s.orders ++ [createdRow s p credId balRes tradeNo now adjusted] },
          createdRow s p credId balRes tradeNo now adjusted)) = _
  rw [hact]
  norm_num

/-! ## Concrete scenarios used as witnesses and counterexamples -/

/-- A concrete order row (the fields the scenarios vary). -/
def mkOrder (oid : ℕ) (tn : String) (cid : Option ℕ) (mny baseBal : ℚ)
    (created : ℕ) (st : ℕ) : OrderRec :=
  { oid := oid, tradeNo := tn, outTradeNo := "out-" ++ tn, merchantId := 1,
    credentialId := cid, otype := "alipay", oname := "item", originalMoney := mny,
    money := mny, adjustAmount := 0, status := st, notifyUrl := none,
    returnUrl := none, param := none, baseBalance := baseBal, confirmBalance := none,
    callbackStatus := 0, callbackAttempts := 0, createdAt := created,
    paidAt := none, expiredAt := none }

/-- A concrete active merchant. -/
def m1 : MerchantRec := ⟨1, "testkey", 1, 0⟩

/-- One PENDING order of 20.00 on credential 1, next to an active merchant. -/
def c10state : DBState := ⟨[mkOrder 1 "T1" (some 1) 20 0 0 0], [m1], [], []⟩

/-- A create request for 20.00 from merchant 1. -/
def c10req : CreateParams := ⟨1, "alipay", "out2", "item", 20, none, none, none⟩

theorem quantize2_twenty : quantize2 (20 : ℚ) = 20 :=
  quantize2_eq_self ⟨2000, by norm_num⟩

theorem quantize2_twenty_cent01 : quantize2 (20 + ((1 : ℕ) : ℚ) / 100) = 2001/100 := by
  rw [show (20 + ((1 : ℕ) : ℚ) / 100) = ((2001 : ℤ) : ℚ) / 100 by push_cast; norm_num]
  rw [quantize2_eq_self ⟨2001, rfl⟩]
  push_cast
  norm_num

theorem c10_occupied : occupied_moneys c10state.orders 20 = [20] := by
  rw [occupied_moneys]
  norm_num [c10state, mkOrder, List.filter]

/-- The amount scan at `c10state` skips 20.00 (taken by the credential-1
order) and lands on 20.01 — even though the request is for credential 2. -/
theorem c10_adjust : adjust_amount c10state.orders (quantize2 c10req.moneyRaw) =
    .ok (2001/100) := by
  have hraw : quantize2 c10req.moneyRaw = 20 := quantize2_twenty
  rw [hraw, adjust_amount]
  have hp : (fun (i : ℕ) =>
      decide (quantize2 (20 + (i : ℚ) / 100) ∉ occupied_moneys c10state.orders 20)) 1
      = true := by
    simp only [c10_occupied, quantize2_twenty_cent01]
    norm_num
  have hmin : ∀ j < 1, (fun (i : ℕ) =>
      decide (quantize2 (20 + (i : ℚ) / 100) ∉ occupied_moneys c10state.orders 20)) j
      = false := by
    intro j hj
    have hj0 : j = 0 := by omega
    subst hj0
    simp only [c10_occupied]
    rw [show (20 + ((0 : ℕ) : ℚ) / 100) = (20 : ℚ) by push_cast; norm_num,
      quantize2_twenty]
    simp
  rw [find?_range_eq_some_of (show (1 : ℕ) < 100 by norm_num) hp hmin]
  show Except.ok (quantize2 (20 + ((1 : ℕ) : ℚ) / 100)) = Except.ok (2001/100)
  rw [quantize2_twenty_cent01]

/-- Creating a same-priced order on credential 2 at `c10state`: the scan sees
the credential-1 order and shifts the amount to 20.01. -/
theorem c10_create_eval : create_order c10state c10req (some (some 2)) (some 0) "T2" 5 =
    .ok ({ c10state with orders := c10state.orders ++
        [createdRow c10state c10req (some 2) (some 0) "T2" 5 (2001/100)] },
      createdRow c10state c10req (some 2) (some 0) "T2" 5 (2001/100)) := by
  have hm : c10state.merchants.find? (fun x => x.mid == c10req.pid) = some m1 := rfl
  rw [create_order_eq_of_adjust hm rfl (some 2) (some 0) "T2" 5, c10_adjust]

/-- C4.  Amount-uniqueness invariant: in every state reachable by any
sequence of operations (order creation, reconciliation, expiry sweeps, poller
timeout, admin cancel, callbacks, rebase), for any fixed credential id the
`money` column of the PENDING orders bound to it is duplicate-free. -/
theorem amount_uniqueness_per_credential {s : DBState} (h : Reachable s)
    (cid : Option ℕ) :
    ((s.orders.filter fun o => o.status == 0 && o.credentialId == cid).map
      fun o => o.money).Nodup := by
  have hpm := (reachable_invariant h).2
  have hsub : (s.orders.filter fun o => o.status == 0 && o.credentialId == cid).Sublist
      (s.orders.filter fun o => o.status == 0) :=
    List.monotone_filter_right _ fun o ho => by
      simp only [Bool.and_eq_true] at ho
      exact ho.1
  exact (hsub.map _).nodup hpm

/-- C5.  Monotone status: one operation step from a reachable state never
moves an order row out of PAID (1) or EXPIRED (2); every row survives with
its id, and any status change is 0→1 or 0→2. -/
theorem monotone_status {s s' : DBState} (hreach : Reachable s) (hstep : Step s s') :
    ∀ o ∈ s.orders, ∃ o' ∈ s'.orders, o'.oid = o.oid ∧
      (o.status = 1 ∨ o.status = 2 → o'.status = o.status) ∧
      (o'.status ≠ o.status → o.status = 0 ∧ (o'.status = 1 ∨ o'.status = 2)) := by
  have hnd := (reachable_invariant hreach).1
  have hfromStep : ∀ (l l' : List OrderRec), OrdersStep l l' →
      ∀ o ∈ l, ∃ o' ∈ l', o'.oid = o.oid ∧
        (o.status = 1 ∨ o.status = 2 → o'.status = o.status) ∧
        (o'.status ≠ o.status → o.status = 0 ∧ (o'.status = 1 ∨ o'.status = 2)) := by
    intro l l' hl
    induction hl with
    | nil => intro o ho; cases ho
    | cons hr hs ih =>
      intro o ho
      rcases List.mem_cons.mp ho with rfl | ho'
      · exact ⟨_, List.mem_cons_self _ _, hr.1, hr.2.2.1, hr.2.2.2⟩
      · obtain ⟨o', ho', h1, h2, h3⟩ := ih o ho'
        exact ⟨o', List.mem_cons_of_mem _ ho', h1, h2, h3⟩
  cases hstep with
  | create p resolved balRes tradeNo now s' o hco =>
    obtain ⟨hord, _, _, _, _, _, _⟩ := create_order_ok_elim hco
    intro x hx
    refine ⟨x, ?_, rfl, fun _ => rfl, fun hne => absurd rfl hne⟩
    rw [hord]
    exact List.mem_append_left _ hx
  | createFail p resolved balRes tradeNo now e hco =>
    intro x hx
    exact ⟨x, hx, rfl, fun _ => rfl, fun hne => absurd rfl hne⟩
  | check tn bal now resps => exact hfromStep _ _ (check_payment_step _ tn bal now resps hnd)
  | expire now => exact hfromStep _ _ (expire_orders_step _ now)
  | pollerExpire tn now => exact hfromStep _ _ (poller_expire_step _ tn now)
  | cancel tn now => exact hfromStep _ _ (admin_cancel_step _ tn now hnd)
  | notify oid resp => exact hfromStep _ _ (send_notify_core _ oid resp).ordersStep
  | retry oid attempt resp =>
    exact hfromStep _ _ (retry_notify_core _ oid attempt resp).ordersStep
  | rebase balOf => exact hfromStep _ _ (update_base_balances_step _ balOf)
  | merchantsAdmin ms =>
    intro x hx
    exact ⟨x, hx, rfl, fun _ => rfl, fun hne => absurd rfl hne⟩

/-- C10.  The occupied-amount scan of CreateOrder filters only on `status = 0`
and the money range — reassigning every row's `credential_id` arbitrarily
never changes the scan; consequently `money`-uniqueness of PENDING orders
holds globally (across different credentials) in every reachable state; and
concretely, a PENDING 20.00 order on credential 1 shifts a new 20.00 order
created on credential 2 to 20.01. -/
theorem occupied_scan_ignores_credential {s : DBState} (h : Reachable s) :
    (∀ (orders : List OrderRec) (orig : ℚ) (g : OrderRec → Option ℕ),
      occupied_moneys (orders.map fun o => { o with credentialId := g o }) orig =
        occupied_moneys orders orig) ∧
    ((s.orders.filter fun o => o.status == 0).map fun o => o.money).Nodup ∧
    (create_order c10state c10req (some (some 2)) (some 0) "T2" 5).map
      (fun r => (r.2.money, r.2.credentialId)) = .ok (2001/100, some 2) := by
  refine ⟨?_, (reachable_invariant h).2, ?_⟩
  · intro orders orig g
    rw [occupied_moneys, occupied_moneys, List.filter_map, List.map_map]
    rfl
  · rw [c10_create_eval]
    rfl

/-- Modelled from the spec: C3's reading of the amount scan, in which "only
that credential group is scanned" — candidates are compared only against
PENDING orders sharing the new order's credential. -/
def adjust_amount_per_credential (orders : List OrderRec) (cid : Option ℕ)
    (orig : ℚ) : Except Unit ℚ :=
  match (List.range 100).find? (fun (i : ℕ) =>
      decide (quantize2 (orig + (i : ℚ) / 100) ∉
        occupied_moneys (orders.filter fun o => o.credentialId == cid) orig)) with
  | some i => .ok (quantize2 (orig + (i : ℚ) / 100))
  | none => .error ()

/-- C3 counterexample.  At `c10state` (one PENDING 20.00 order on
credential 1), creating a 20.00 order on credential 2 yields money 20.01,
while the claim's per-credential scan would yield 20.00: the scan is not
restricted to the new order's credential group. -/
theorem amount_adjust_not_per_credential :
    (create_order c10state c10req (some (some 2)) (some 0) "T2" 5).map
      (fun r => r.2.money) = .ok (2001/100) ∧
    adjust_amount_per_credential c10state.orders (some 2)
      (quantize2 c10req.moneyRaw) = .ok 20 ∧
    (2001/100 : ℚ) ≠ 20 := by
  refine ⟨?_, ?_, by norm_num⟩
  · rw [c10_create_eval]; rfl
  · rw [adjust_amount_per_credential]
    have hfilter : (c10state.orders.filter fun o => o.credentialId == some 2) = [] := by
      rfl
    have hp : (fun (i : ℕ) =>
        decide (quantize2 (quantize2 c10req.moneyRaw + (i : ℚ) / 100) ∉
          occupied_moneys (c10state.orders.filter fun o => o.credentialId == some 2)
            (quantize2 c10req.moneyRaw))) 0 = true := by
      rw [hfilter]
      simp [occupied_moneys]
    rw [find?_range_eq_some_of (show (0 : ℕ) < 100 by norm_num) hp
      (fun j hj => absurd hj (by omega))]
    show Except.ok (quantize2 (quantize2 c10req.moneyRaw + ((0 : ℕ) : ℚ) / 100)) = _
    have : quantize2 c10req.moneyRaw + ((0 : ℕ) : ℚ) / 100 = (20 : ℚ) := by
      rw [show c10req.moneyRaw = (20 : ℚ) from rfl, quantize2_twenty]
      push_cast
      ring
    rw [this, quantize2_twenty]

theorem create_order_conflict_elim {s : DBState} {p : CreateParams}
    {resolved : Option (Option ℕ)} {balRes : Option ℚ} {tradeNo : String} {now : ℕ}
    (h : create_order s p resolved balRes tradeNo now = .error .amountConflict) :
    adjust_amount s.orders (quantize2 p.moneyRaw) = .error () := by
  rw [create_order.eq_def] at h
  split at h
  · simp at h
  · split at h
    · simp at h
    · split at h
      · simp at h
      · dsimp only [] at h
        split at h
        · rename_i e heq
          exact heq
        · simp at h

/-- The S5 ladder request: merchant 1 asks for 20.00. -/
def ladReq : CreateParams := ⟨1, "alipay", "outL", "item", 20, none, none, none⟩

/-- The adjusted amount the k-th ladder order receives: 20.00 + k cents. -/
def ladderMoney (k : ℕ) : ℚ := ((2000 + k : ℤ) : ℚ) / 100

/-- The database after k successive 20.00 creates on credential 1, starting
from an empty orders table. -/
def ladderState : ℕ → DBState
  | 0 => ⟨[], [m1], [], []⟩
  | k + 1 =>
    let s := ladderState k
    { s with orders := s.orders ++
        [createdRow s ladReq (some 1) (some 0) (toString (k + 1)) (k + 1)
          (ladderMoney k)] }

theorem ladderState_merchants (k : ℕ) : (ladderState k).merchants = [m1] := by
  induction k with
  | zero => rfl
  | succ k ih => rw [ladderState]; exact ih

theorem quantize2_twenty_add (i : ℕ) :
    quantize2 (20 + (i : ℚ) / 100) = ladderMoney i := by
  rw [show (20 + (i : ℚ) / 100) = ((2000 + i : ℤ) : ℚ) / 100 by push_cast; ring]
  exact quantize2_eq_self ⟨2000 + i, rfl⟩

theorem ladderMoney_inj {i j : ℕ} (h : ladderMoney i = ladderMoney j) : i = j := by
  rw [ladderMoney, ladderMoney, div_eq_div_iff (by norm_num) (by norm_num)] at h
  have : (2000 + i : ℤ) = (2000 + j : ℤ) := by
    have := mul_right_cancel₀ (show (100 : ℚ) ≠ 0 by norm_num) h
    exact_mod_cast this
  omega

theorem ladder_occupied (k : ℕ) (hk : k ≤ 99) :
    occupied_moneys (ladderState k).orders 20 = (List.range k).map ladderMoney := by
  induction k with
  | zero => rfl
  | succ k ih =>
    rw [ladderState]
    show occupied_moneys ((ladderState k).orders ++ [_]) 20 = _
    rw [occupied_moneys, List.filter_append, List.map_append]
    rw [occupied_moneys] at ih
    rw [ih (by omega)]
    have hrow : (List.filter (fun o =>
        o.status == 0 && decide ((20 : ℚ) ≤ o.money) && decide (o.money ≤ 20 + 99/100))
        [createdRow (ladderState k) ladReq (some 1) (some 0) (toString (k + 1)) (k + 1)
          (ladderMoney k)]) =
        [createdRow (ladderState k) ladReq (some 1) (some 0) (toString (k + 1)) (k + 1)
          (ladderMoney k)] := by
      have hk99 : ((k : ℚ)) ≤ 99 := by exact_mod_cast (show k ≤ 99 by omega)
      have hk0 : (0 : ℚ) ≤ (k : ℚ) := by positivity
      have h1 : (20 : ℚ) ≤ ladderMoney k := by
        rw [ladderMoney]; push_cast; linarith
      have h2 : ladderMoney k ≤ 20 + 99/100 := by
        rw [ladderMoney]; push_cast; linarith
      simp [createdRow, h1, h2]
    rw [hrow]
    rw [List.range_succ, List.map_append]
    rfl

theorem ladder_create (k : ℕ) (hk : k ≤ 99) :
    create_order (ladderState k) ladReq (some (some 1)) (some 0)
        (toString (k + 1)) (k + 1) =
      .ok (ladderState (k + 1),
        createdRow (ladderState k) ladReq (some 1) (some 0) (toString (k + 1)) (k + 1)
          (ladderMoney k)) := by
  have hm : (ladderState k).merchants.find? (fun x => x.mid == ladReq.pid) = some m1 := by
    rw [ladderState_merchants]
    rfl
  rw [create_order_eq_of_adjust hm rfl (some 1) (some 0) _ _]
  have hadj : adjust_amount (ladderState k).orders (quantize2 ladReq.moneyRaw) =
      .ok (ladderMoney k) := by
    rw [show ladReq.moneyRaw = (20 : ℚ) from rfl, quantize2_twenty, adjust_amount]
    have hp : (fun (i : ℕ) =>
        decide (quantize2 (20 + (i : ℚ) / 100) ∉
          occupied_moneys (ladderState k).orders 20)) k = true := by
      show decide (quantize2 (20 + (k : ℚ) / 100) ∉
        occupied_moneys (ladderState k).orders 20) = true
      rw [ladder_occupied k hk, quantize2_twenty_add]
      simp only [decide_eq_true_eq, List.mem_map, not_exists, not_and]
      intro j hj hje
      have := ladderMoney_inj hje
      have := List.mem_range.mp hj
      omega
    have hmin : ∀ j < k, (fun (i : ℕ) =>
        decide (quantize2 (20 + (i : ℚ) / 100) ∉
          occupied_moneys (ladderState k).orders 20)) j = false := by
      intro j hj
      show decide (quantize2 (20 + (j : ℚ) / 100) ∉
        occupied_moneys (ladderState k).orders 20) = false
      rw [ladder_occupied k hk, quantize2_twenty_add]
      simp only [decide_eq_false_iff_not, not_not]
      exact List.mem_map.mpr ⟨j, List.mem_range.mpr hj, rfl⟩
    rw [find?_range_eq_some_of (show k < 100 by omega) hp hmin]
    show Except.ok (quantize2 (20 + (k : ℚ) / 100)) = _
    rw [quantize2_twenty_add]
  rw [hadj]
  show Except.ok _ = _
  rw [ladderState]

/-- C3 (amended).  The amount adjustment scans PENDING orders system-wide
(no credential restriction): a successful CreateOrder returns
`original + 0.01·k` for the smallest `k ∈ {0,…,99}` whose value is not the
`money` of any PENDING order in the whole table, AmountConflict arises only
when all 100 candidates are taken, and five successive 20.00 creates on one
credential receive 20.00, 20.01, 20.02, 20.03, 20.04 in creation order. -/
theorem amount_adjustment_global (s : DBState) (p : CreateParams)
    (resolved : Option (Option ℕ)) (balRes : Option ℚ) (tradeNo : String)
    (now : ℕ) :
    (∀ s' o, create_order s p resolved balRes tradeNo now = .ok (s', o) →
      ∃ k : ℕ, k < 100 ∧ o.money = o.originalMoney + (k : ℚ) / 100 ∧
        (∀ x ∈ s.orders, x.status = 0 → x.money ≠ o.money) ∧
        (∀ j < k, ∃ x ∈ s.orders, x.status = 0 ∧
          x.money = o.originalMoney + (j : ℚ) / 100)) ∧
    (create_order s p resolved balRes tradeNo now = .error .amountConflict →
      ∀ k : ℕ, k < 100 → ∃ x ∈ s.orders, x.status = 0 ∧
        x.money = quantize2 p.moneyRaw + (k : ℚ) / 100) ∧
    (∀ k < 5, create_order (ladderState k) ladReq (some (some 1)) (some 0)
        (toString (k + 1)) (k + 1) =
      .ok (ladderState (k + 1),
        createdRow (ladderState k) ladReq (some 1) (some 0) (toString (k + 1))
          (k + 1) (ladderMoney k))) ∧
    (ladderState 5).orders.map (fun o => o.money) =
      [20, 2001/100, 2002/100, 2003/100, 2004/100] := by
  refine ⟨?_, ?_, fun k hk => ladder_create k (by omega), ?_⟩
  · intro s' o hok
    obtain ⟨_, _, _, _, _, horig, hadj⟩ := create_order_ok_elim hok
    obtain ⟨k, hk, hm, hfree, htaken⟩ :=
      adjust_amount_ok (quantize2_twoDp p.moneyRaw) hadj
    rw [horig]
    exact ⟨k, hk, hm, hfree, htaken⟩
  · intro herr
    exact adjust_amount_conflict (quantize2_twoDp p.moneyRaw)
      (create_order_conflict_elim herr)
  · simp only [ladderState, createdRow, List.map_append, List.map_cons, List.map_nil,
      List.nil_append, List.append_assoc]
    rw [ladderMoney, ladderMoney, ladderMoney, ladderMoney, ladderMoney]
    norm_num

theorem find?_map_pres {l : List OrderRec} {f : OrderRec → OrderRec}
    {p : OrderRec → Bool} (hf : ∀ o, p (f o) = p o) :
    (l.map f).find? p = (l.find? p).map f := by
  induction l with
  | nil => rfl
  | cons a l ih =>
    by_cases ha : p a = true
    · rw [List.map_cons, List.find?_cons_of_pos _ (by rw [hf]; exact ha),
        List.find?_cons_of_pos _ ha]
      rfl
    · rw [List.map_cons, List.find?_cons_of_neg _ (by rw [hf]; simpa using ha),
        List.find?_cons_of_neg _ (by simpa using ha), ih]

theorem update_callback_find {s : DBState} {oid : ℕ} {o : OrderRec} (st att : ℕ)
    (hfind : s.orders.find? (fun x => x.oid == oid) = some o) :
    (update_callback_status s oid st att).orders.find? (fun x => x.oid == oid) =
      some { o with callbackStatus := st, callbackAttempts := att } := by
  have hoid : o.oid = oid := by
    have := List.find?_some hfind
    simpa using this
  rw [update_callback_status]
  show (s.orders.map _).find? _ = _
  rw [find?_map_pres ?hf, hfind]
  · simp [hoid]
  case hf =>
    intro x
    by_cases hx : x.oid = oid <;> simp [hx]

theorem send_notify_eval {s : DBState} {oid : ℕ} {o : OrderRec} {m : MerchantRec}
    (resp : Option HttpResp)
    (hfind : s.orders.find? (fun x => x.oid == oid) = some o)
    (hm : s.merchants.find? (fun x => x.mid == o.merchantId) = some m)
    (hurl : urlBlank o.notifyUrl = false) :
    send_notify s oid resp =
      (let attempts := o.callbackAttempts + 1
       let s1 := update_callback_status s oid 3 attempts
       let s2 := log_callback s1 oid attempts (o.notifyUrl.getD "")
         (notifyLoggedStatus resp) (notifyLoggedBody resp)
       let s3 :=
         if notifySuccess resp then update_callback_status s2 oid 1 attempts
         else if 6 ≤ attempts then update_callback_status s2 oid 2 attempts
         else update_callback_status s2 oid 3 attempts
       (s3, notifySuccess resp)) := by
  rw [send_notify_found resp hfind, hm]
  show (if urlBlank o.notifyUrl = true then (s, false) else _) = _
  rw [hurl]
  simp only [Bool.false_eq_true, if_false]

theorem retry_notify_eval {s : DBState} {oid attempt : ℕ} {o : OrderRec}
    {m : MerchantRec} (resp : Option HttpResp)
    (hb : ¬ (attempt < 1 ∨ 5 < attempt))
    (hfind : s.orders.find? (fun x => x.oid == oid) = some o)
    (hcs : ¬ o.callbackStatus = 1)
    (hm : s.merchants.find? (fun x => x.mid == o.merchantId) = some m)
    (hurl : urlBlank o.notifyUrl = false) :
    retry_notify s oid attempt resp =
      (let total := attempt + 1
       let s1 := update_callback_status s oid 3 total
       let s2 := log_callback s1 oid total (o.notifyUrl.getD "")
         (notifyLoggedStatus resp) (notifyLoggedBody resp)
       if notifySuccess resp then update_callback_status s2 oid 1 total
       else if 5 ≤ attempt then update_callback_status s2 oid 2 total
       else update_callback_status s2 oid 3 total) := by
  rw [retry_notify_found resp hb hfind, if_neg hcs, hm]
  show (if urlBlank o.notifyUrl = true then s else _) = _
  rw [hurl]
  simp only [Bool.false_eq_true, if_false]

/-- C6 (amended).  A notification attempt (`send_notify` or `retry_notify`)
succeeds exactly when the merchant's response body, stripped of surrounding
whitespace, equals the literal `success` — the HTTP status code is not
consulted; a transport error is a failure.  A failed `send_notify` leaves
`callback_status = 3` while the total attempts are below 6 and sets
`callback_status = 2` once they reach 6; a failed last retry
(`attempt = 5`, total 6) sets `callback_status = 2`, earlier failed retries
keep 3. -/
theorem notify_success_criterion {s : DBState} {oid : ℕ} (resp : Option HttpResp)
    {o : OrderRec} {m : MerchantRec} (attempt : ℕ)
    (hfind : s.orders.find? (fun x => x.oid == oid) = some o)
    (hm : s.merchants.find? (fun x => x.mid == o.merchantId) = some m)
    (hurl : urlBlank o.notifyUrl = false) :
    ((send_notify s oid resp).2 = true ↔
      ∃ r, resp = some r ∧ pyStrip r.body = "success") ∧
    ((send_notify s oid resp).1.orders.find? (fun x => x.oid == oid)) =
      some { o with
        callbackStatus :=
          if notifySuccess resp then 1
          else if 6 ≤ o.callbackAttempts + 1 then 2 else 3,
        callbackAttempts := o.callbackAttempts + 1 } ∧
    (1 ≤ attempt → attempt ≤ 5 → ¬ o.callbackStatus = 1 →
      (retry_notify s oid attempt resp).orders.find? (fun x => x.oid == oid) =
        some { o with
          callbackStatus :=
            if notifySuccess resp then 1
            else if 5 ≤ attempt then 2 else 3,
          callbackAttempts := attempt + 1 }) := by
  refine ⟨?_, ?_, ?_⟩
  · rw [send_notify_eval resp hfind hm hurl]
    show (notifySuccess resp = true ↔ _)
    cases resp with
    | none => simp [notifySuccess]
    | some r => simp [notifySuccess]
  · rw [send_notify_eval resp hfind hm hurl]
    have h1 : (log_callback (update_callback_status s oid 3 (o.callbackAttempts + 1))
        oid (o.callbackAttempts + 1) (o.notifyUrl.getD "") (notifyLoggedStatus resp)
        (notifyLoggedBody resp)).orders.find? (fun x => x.oid == oid) =
        some { o with callbackStatus := 3, callbackAttempts := o.callbackAttempts + 1 } :=
      update_callback_find 3 (o.callbackAttempts + 1) hfind
    by_cases hok : notifySuccess resp = true
    · simp only [hok, if_true]
      rw [update_callback_find 1 (o.callbackAttempts + 1) h1]
    · simp only [hok, Bool.false_eq_true, if_false]
      by_cases h6 : 6 ≤ o.callbackAttempts + 1
      · simp only [h6, if_true]
        rw [update_callback_find 2 (o.callbackAttempts + 1) h1]
      · simp only [h6, if_false]
        rw [update_callback_find 3 (o.callbackAttempts + 1) h1]
  · intro ha1 ha5 hcs
    rw [retry_notify_eval resp (by omega) hfind hcs hm hurl]
    have h1 : (log_callback (update_callback_status s oid 3 (attempt + 1))
        oid (attempt + 1) (o.notifyUrl.getD "") (notifyLoggedStatus resp)
        (notifyLoggedBody resp)).orders.find? (fun x => x.oid == oid) =
        some { o with callbackStatus := 3, callbackAttempts := attempt + 1 } :=
      update_callback_find 3 (attempt + 1) hfind
    by_cases hok : notifySuccess resp = true
    · simp only [hok, if_true]
      rw [update_callback_find 1 (attempt + 1) h1]
    · simp only [hok, Bool.false_eq_true, if_false]
      by_cases h5 : 5 ≤ attempt
      · simp only [h5, if_true]
        rw [update_callback_find 2 (attempt + 1) h1]
      · simp only [h5, if_false]
        rw [update_callback_find 3 (attempt + 1) h1]

/-- One PAID order carrying a notify url, next to its merchant. -/
def c6o : OrderRec :=
  { mkOrder 1 "T6" (some 1) 10 0 0 1 with notifyUrl := some "http://shop/notify" }

/-- The state for the callback counterexample. -/
def c6state : DBState := ⟨[c6o], [m1], [], []⟩

/-- C6 counterexample.  A merchant response with HTTP status 500 and body
`success` is treated as a successful notification — `send_notify` returns
true and sets `callback_status = 1` — although the claim requires a 2xx
status for success (500 is not 2xx). -/
theorem notify_ignores_status_code :
    (send_notify c6state 1 (some ⟨500, "success"⟩)).2 = true ∧
    ((send_notify c6state 1 (some ⟨500, "success"⟩)).1.orders.map
      (fun o => o.callbackStatus)) = [1] ∧
    ¬ (200 ≤ 500 ∧ 500 ≤ 299) := by
  refine ⟨by decide, by decide, by omega⟩


/-! ## Return-url preservation lemmas -/

theorem lookup_cons_eq_of (p : String × String) (rest : List (String × String)) {k : String}
    (hk : k = p.1) : ((p :: rest).lookup k) = some p.2 := by
  obtain ⟨a, b⟩ := p
  subst hk
  simp [List.lookup_cons]

theorem lookup_cons_ne_of (p : String × String) (rest : List (String × String)) {k : String}
    (hk : k ≠ p.1) : ((p :: rest).lookup k) = rest.lookup k := by
  obtain ⟨a, b⟩ := p
  simp only [List.lookup_cons, beq_eq_false_iff_ne.mpr hk]

theorem lookup_mem {l : List (String × String)} {k v : String}
    (h : l.lookup k = some v) : (k, v) ∈ l := by
  induction l with
  | nil => cases h
  | cons p rest ih =>
    by_cases hk : k = p.1
    · rw [lookup_cons_eq_of p rest hk] at h
      obtain rfl : p.2 = v := by injection h
      exact List.mem_cons.mpr (Or.inl (by rw [hk]))
    · rw [lookup_cons_ne_of p rest hk] at h
      exact List.mem_cons_of_mem _ (ih h)

theorem lookup_eq_none_of_not_mem {l : List (String × String)} {k : String}
    (h : k ∉ l.map Prod.fst) : l.lookup k = none := by
  induction l with
  | nil => rfl
  | cons p rest ih =>
    simp only [List.map_cons, List.mem_cons, not_or] at h
    rw [lookup_cons_ne_of p rest h.1]
    exact ih h.2

theorem lookup_isSome_of_mem {l : List (String × String)} {k : String}
    (h : k ∈ l.map Prod.fst) : ∃ v, l.lookup k = some v := by
  induction l with
  | nil => cases h
  | cons p rest ih =>
    by_cases hk : k = p.1
    · exact ⟨p.2, lookup_cons_eq_of p rest hk⟩
    · simp only [List.map_cons, List.mem_cons] at h
      rcases h with h | h
      · exact absurd h hk
      · obtain ⟨v, hv⟩ := ih h
        exact ⟨v, by rw [lookup_cons_ne_of p rest hk]; exact hv⟩

theorem lookup_of_mem_nodup {l : List (String × String)} {p : String × String}
    (hnd : (l.map Prod.fst).Nodup) (hp : p ∈ l) : l.lookup p.1 = some p.2 := by
  induction l with
  | nil => cases hp
  | cons q rest ih =>
    simp only [List.map_cons, List.nodup_cons] at hnd
    rcases List.mem_cons.mp hp with rfl | hp'
    · exact lookup_cons_eq_of p rest rfl
    · have hne : p.1 ≠ q.1 := by
        intro he
        exact hnd.1 (he ▸ List.mem_map.mpr ⟨p, hp', rfl⟩)
      rw [lookup_cons_ne_of q rest hne]
      exact ih hnd.2 hp'

theorem mem_flattenFirst_iff {l : List (String × String)} {k v : String} :
    (k, v) ∈ flattenFirst l ↔ l.lookup k = some v := by
  induction l with
  | nil => simp [flattenFirst]
  | cons p rest ih =>
    obtain ⟨k', v'⟩ := p
    rw [flattenFirst]
    by_cases hk : k = k'
    · subst hk
      constructor
      · intro h
        rcases List.mem_cons.mp h with h | h
        · have hv : v' = v := by injection h with h1 h2; exact h2.symm
          rw [lookup_cons_eq_of (k, v') rest rfl, hv]
        · have := (List.mem_filter.mp h).2
          simp at this
      · intro h
        rw [lookup_cons_eq_of (k, v') rest rfl] at h
        obtain rfl : v' = v := by injection h
        exact List.mem_cons_self _ _
    · constructor
      · intro h
        rcases List.mem_cons.mp h with h | h
        · exact absurd (congrArg Prod.fst h) hk
        · rw [lookup_cons_ne_of (k', v') rest hk]
          exact ih.mp (List.mem_filter.mp h).1
      · intro h
        rw [lookup_cons_ne_of (k', v') rest hk] at h
        exact List.mem_cons_of_mem _
          (List.mem_filter.mpr ⟨ih.mpr h, by simp [hk]⟩)

theorem lookup_filter_ne {l : List (String × String)} {k q : String} (h : k ≠ q) :
    (l.filter fun p => p.1 ≠ q).lookup k = l.lookup k := by
  induction l with
  | nil => rfl
  | cons a rest ih =>
    by_cases ha : a.1 = q
    · have hpa : (decide (a.1 ≠ q)) = false := by simp [ha]
      rw [List.filter_cons, hpa]
      simp only [Bool.false_eq_true, if_false]
      rw [ih, lookup_cons_ne_of a rest (fun he => h (he.trans ha))]
    · have hpa : (decide (a.1 ≠ q)) = true := by simp [ha]
      rw [List.filter_cons, hpa, if_pos rfl]
      by_cases hk : k = a.1
      · rw [lookup_cons_eq_of a _ hk, lookup_cons_eq_of a rest hk]
      · rw [lookup_cons_ne_of a _ hk, lookup_cons_ne_of a rest hk, ih]

theorem flattenFirst_keys_nodup (l : List (String × String)) :
    ((flattenFirst l).map Prod.fst).Nodup := by
  induction l with
  | nil => simp [flattenFirst]
  | cons p rest ih =>
    obtain ⟨k, v⟩ := p
    rw [flattenFirst]
    simp only [List.map_cons, List.nodup_cons]
    constructor
    · intro hmem
      obtain ⟨q, hq, hqk⟩ := List.mem_map.mp hmem
      have h2 := (List.mem_filter.mp hq).2
      simp [hqk] at h2
    · exact ih.sublist ((List.filter_sublist _).map Prod.fst)

theorem lookup_flattenFirst (l : List (String × String)) (k : String) :
    (flattenFirst l).lookup k = l.lookup k := by
  induction l with
  | nil => rfl
  | cons p rest ih =>
    obtain ⟨q, v⟩ := p
    rw [flattenFirst]
    by_cases hk : k = q
    · rw [lookup_cons_eq_of (q, v) _ hk, lookup_cons_eq_of (q, v) rest hk]
    · rw [lookup_cons_ne_of (q, v) _ hk, lookup_cons_ne_of (q, v) rest hk,
        lookup_filter_ne hk, ih]

/-- C7.  [corrected] Return-URL parameter merging as the code performs it:
`build_return_url` parses the query of `return_url`, keeps only the FIRST
value of each key (`{k: v[0] for k, v in parse_qs(...).items()}`), and merges
the signed notify parameters over that flattened dict.  Hence (i) every
signed notify parameter appears in the result; (ii) the first pre-existing
value of each key survives unchanged when the key does not collide with a
notify parameter; (iii) any result pair whose key is a notify key carries the
notify value; and (iv) any result pair whose key is not a notify key is the
FIRST pre-existing value of that key — so later duplicate values of a
pre-existing key are dropped even without any collision, contradicting the
claim that every pre-existing parameter survives. -/
theorem return_url_parameter_merge
    (existing : List (String × String)) (o : OrderRec) (pid : ℕ) (sig : String) :
    (∀ p ∈ build_signed_params o pid sig,
        p ∈ build_return_url_query existing (build_signed_params o pid sig)) ∧
    (∀ k v, existing.lookup k = some v →
        k ∉ (build_signed_params o pid sig).map Prod.fst →
        (k, v) ∈ build_return_url_query existing (build_signed_params o pid sig)) ∧
    (∀ p ∈ build_return_url_query existing (build_signed_params o pid sig),
        p.1 ∈ (build_signed_params o pid sig).map Prod.fst →
        p ∈ build_signed_params o pid sig) ∧
    (∀ p ∈ build_return_url_query existing (build_signed_params o pid sig),
        p.1 ∉ (build_signed_params o pid sig).map Prod.fst →
        existing.lookup p.1 = some p.2) := by
  have hnd : ((build_signed_params o pid sig).map Prod.fst).Nodup := by
    simp [build_signed_params]
  refine ⟨?_, ?_, ?_, ?_⟩
  · intro p hp
    unfold build_return_url_query pyDictUnion
    cases hw : (flattenFirst existing).lookup p.1 with
    | none =>
      refine List.mem_append_right _ (List.mem_filter.mpr ⟨hp, ?_⟩)
      rw [hw]
      rfl
    | some w =>
      refine List.mem_append_left _ (List.mem_map.mpr ⟨(p.1, w), lookup_mem hw, ?_⟩)
      show (p.1, ((build_signed_params o pid sig).lookup p.1).getD w) = p
      rw [lookup_of_mem_nodup hnd hp]
      exact Prod.mk.eta
  · intro k v hkv hkn
    unfold build_return_url_query pyDictUnion
    have hf : (flattenFirst existing).lookup k = some v := by
      rw [lookup_flattenFirst]
      exact hkv
    refine List.mem_append_left _ (List.mem_map.mpr ⟨(k, v), lookup_mem hf, ?_⟩)
    show (k, ((build_signed_params o pid sig).lookup k).getD v) = (k, v)
    rw [lookup_eq_none_of_not_mem hkn]
    rfl
  · intro p hp hpn
    unfold build_return_url_query pyDictUnion at hp
    rcases List.mem_append.mp hp with h | h
    · obtain ⟨q, hq, hqp⟩ := List.mem_map.mp h
      subst hqp
      have hq1 : q.1 ∈ (build_signed_params o pid sig).map Prod.fst := hpn
      obtain ⟨w, hw⟩ := lookup_isSome_of_mem hq1
      show (q.1, ((build_signed_params o pid sig).lookup q.1).getD q.2) ∈
        build_signed_params o pid sig
      rw [hw]
      exact lookup_mem hw
    · exact (List.mem_filter.mp h).1
  · intro p hp hpn
    unfold build_return_url_query pyDictUnion at hp
    rcases List.mem_append.mp hp with h | h
    · obtain ⟨q, hq, hqp⟩ := List.mem_map.mp h
      subst hqp
      have hq1 : (build_signed_params o pid sig).lookup q.1 = none :=
        lookup_eq_none_of_not_mem hpn
      show existing.lookup q.1 =
        some (((build_signed_params o pid sig).lookup q.1).getD q.2)
      rw [hq1, ← lookup_flattenFirst]
      exact lookup_of_mem_nodup (flattenFirst_keys_nodup existing) hq
    · exact absurd (List.mem_map.mpr ⟨p, (List.mem_filter.mp h).1, rfl⟩) hpn

/-- Witness for C7: on a concrete order and the existing query `a=1`, the
pre-existing pair survives (its key collides with no notify key). -/
theorem return_url_parameter_merge_witness :
    ("a", "1") ∈ build_return_url_query [("a", "1")]
      (build_signed_params (mkOrder 1 "T7" (some 1) 10 0 0 1) 1 "S") :=
  (return_url_parameter_merge [("a", "1")] (mkOrder 1 "T7" (some 1) 10 0 0 1)
    1 "S").2.1 "a" "1" (by decide) (by decide)

/-- C7 counterexample.  The query of `return_url` holds the repeated key
`a=1&a=2`; no notify key collides with `a`, yet the pre-existing pair
`("a","2")` is absent from the merged result because the code keeps only the
first value per key — the claim that every pre-existing parameter survives
unless its key collides with a notify parameter fails. -/
theorem return_url_drops_duplicate_key :
    ("a", "2") ∈ ([("a", "1"), ("a", "2")] : List (String × String)) ∧
    "a" ∉ (build_signed_params (mkOrder 1 "T7" (some 1) 10 0 0 1) 1 "S").map
      Prod.fst ∧
    ("a", "2") ∉ build_return_url_query [("a", "1"), ("a", "2")]
      (build_signed_params (mkOrder 1 "T7" (some 1) 10 0 0 1) 1 "S") := by
  refine ⟨by decide, by decide, ?_⟩
  decide

/-! ## C8: cents conversion rounding -/

/-- C8.  [corrected] The code's cents conversion
(`int((x * 100).to_integral_value())`, Python `Decimal` default rounding) is
round-half-EVEN, not the round-half-up the spec claims: the result is within
1/2 of `x·100`, at an exact tie the result is even, and on two-decimal
amounts the conversion is exact. -/
theorem cents_half_even (q : ℚ) :
    |q * 100 - (toCents q : ℚ)| ≤ 1/2 ∧
    (q * 100 - (⌊q * 100⌋ : ℚ) = 1/2 → toCents q % 2 = 0) ∧
    (∀ z : ℤ, toCents ((z : ℚ) / 100) = z) := by
  have h0 : (0:ℚ) ≤ q * 100 - ⌊q * 100⌋ := by
    have h := Int.fract_nonneg (q * 100)
    rwa [Int.fract] at h
  have h1 : q * 100 - (⌊q * 100⌋ : ℚ) < 1 := by
    have h := Int.fract_lt_one (q * 100)
    rwa [Int.fract] at h
  refine ⟨?_, ?_, toCents_twoDp⟩
  · rw [toCents, roundHalfEven_eq]
    by_cases hr1 : q * 100 - (⌊q * 100⌋ : ℚ) < 1/2
    · rw [if_pos hr1, abs_le]
      constructor <;> linarith
    · rw [if_neg hr1]
      by_cases hr2 : (1:ℚ)/2 < q * 100 - (⌊q * 100⌋ : ℚ)
      · rw [if_pos hr2]
        push_cast
        rw [abs_le]
        constructor <;> linarith
      · rw [if_neg hr2]
        have he : q * 100 - (⌊q * 100⌋ : ℚ) = 1/2 := by
          have hx := not_lt.mp hr1
          have hy := not_lt.mp hr2
          linarith
        by_cases hp : ⌊q * 100⌋ % 2 = 0
        · rw [if_pos hp, abs_le]
          constructor <;> linarith
        · rw [if_neg hp]
          push_cast
          rw [abs_le]
          constructor <;> linarith
  · intro he
    rw [toCents, roundHalfEven_eq]
    have hn1 : ¬ (q * 100 - (⌊q * 100⌋ : ℚ) < 1/2) := by
      rw [he]
      exact lt_irrefl _
    have hn2 : ¬ ((1:ℚ)/2 < q * 100 - (⌊q * 100⌋ : ℚ)) := by
      rw [he]
      exact lt_irrefl _
    rw [if_neg hn1, if_neg hn2]
    by_cases hp : ⌊q * 100⌋ % 2 = 0
    · rw [if_pos hp]
      exact hp
    · rw [if_neg hp]
      omega

/-- Witness for C8: the amount `0.005` is an exact tie (`0.005·100 = 1/2`)
and the code rounds it to the even integer `0`. -/
theorem cents_half_even_witness :
    ((1:ℚ)/200) * 100 - (⌊((1:ℚ)/200) * 100⌋ : ℚ) = 1/2 ∧
    toCents ((1:ℚ)/200) % 2 = 0 := by
  have hf : ⌊((1:ℚ)/200) * 100⌋ = 0 := by
    rw [show ((1:ℚ)/200) * 100 = 1/2 by norm_num]
    rw [Int.floor_eq_zero_iff]
    constructor <;> norm_num
  have htie : ((1:ℚ)/200) * 100 - (⌊((1:ℚ)/200) * 100⌋ : ℚ) = 1/2 := by
    rw [hf]
    norm_num
  exact ⟨htie, (cents_half_even ((1:ℚ)/200)).2.1 htie⟩

/-- C8 counterexample.  On the tie `0.005` the code's conversion yields `0`
(half-even) while the claimed round-half-up yields `1`: the spec's rounding
direction is wrong. -/
theorem cents_not_half_up :
    toCents ((1:ℚ)/200) = 0 ∧ roundHalfUp (((1:ℚ)/200) * 100) = 1 ∧ (0:ℤ) ≠ 1 := by
  have hf : ⌊((1:ℚ)/2)⌋ = 0 := by
    rw [Int.floor_eq_zero_iff]
    constructor <;> norm_num
  refine ⟨?_, ?_, by decide⟩
  · rw [toCents, show ((1:ℚ)/200) * 100 = 1/2 by norm_num, roundHalfEven_eq, hf]
    norm_num
  · rw [roundHalfUp, show ((1:ℚ)/200) * 100 + 1/2 = 1 by norm_num]
    exact Int.floor_one

/-! ## C1: reconciler soundness -/

theorem ordersCore_exists_right {l l' : List OrderRec} (h : OrdersCore l l')
    {o : OrderRec} (ho : o ∈ l) : ∃ o', o' ∈ l' ∧ coreEq o o' := by
  induction h with
  | nil => cases ho
  | cons hr hs ih =>
    rcases List.mem_cons.mp ho with rfl | ho'
    · exact ⟨_, List.mem_cons_self _ _, hr⟩
    · obtain ⟨o', ho2, hc⟩ := ih ho'
      exact ⟨o', List.mem_cons_of_mem _ ho2, hc⟩

theorem pending_same_cred_sorted (s : DBState) (cid : Option ℕ) :
    List.Pairwise (fun a b : OrderRec => a.createdAt ≤ b.createdAt)
      (pending_same_cred s cid) := by
  haveI : IsTotal OrderRec (fun a b => a.createdAt ≤ b.createdAt) :=
    ⟨fun a b => Nat.le_total a.createdAt b.createdAt⟩
  haveI : IsTrans OrderRec (fun a b => a.createdAt ≤ b.createdAt) :=
    ⟨fun a b c hab hbc => le_trans hab hbc⟩
  exact (List.sorted_insertionSort _ _).sublist (List.filter_sublist _)

theorem head_pending_earliest {s : DBState} {cid : Option ℕ}
    (hne : pending_same_cred s cid ≠ []) :
    (pending_same_cred s cid).headD default ∈ pending_same_cred s cid ∧
    ∀ o ∈ pending_same_cred s cid,
      ((pending_same_cred s cid).headD default).createdAt ≤ o.createdAt := by
  have hsorted := pending_same_cred_sorted s cid
  obtain ⟨x, t, hP⟩ := List.exists_cons_of_ne_nil hne
  rw [hP] at hsorted ⊢
  rw [List.headD_cons]
  refine ⟨List.mem_cons_self _ _, ?_⟩
  intro o ho
  rcases List.mem_cons.mp ho with rfl | ho'
  · exact le_refl _
  · exact (List.pairwise_cons.mp hsorted).1 o ho'

theorem check_payment_match_branch {s : DBState} {tn : String} {q : OrderRec}
    {b : ℚ} {idxs : List ℕ} (now : ℕ) (resps : ℕ → Option HttpResp)
    (hfind : s.orders.find? (fun o => o.tradeNo == tn) = some q)
    (hq0 : q.status = 0)
    (hpne : pending_same_cred s q.credentialId ≠ [])
    (hdiff : ¬ (b - ((pending_same_cred s q.credentialId).headD default).baseBalance ≤ 0))
    (hdfs : subset_sum_dfs
        ((pending_same_cred s q.credentialId).map fun o => toCents o.money)
        (toCents (b - ((pending_same_cred s q.credentialId).headD default).baseBalance))
      = some idxs) :
    check_payment s tn (.ok b) now resps =
      (trigger_callbacks
        (log_balance_query
          (mark_orders_paid s
            (idxs.map fun i =>
              ((pending_same_cred s q.credentialId).getD i default).oid) b now)
          b .matchSuccess
          (some (idxs.map fun i =>
            ((pending_same_cred s q.credentialId).getD i default).tradeNo)))
        (idxs.map fun i =>
          ((pending_same_cred s q.credentialId).getD i default).oid) resps,
        decide (tn ∈ idxs.map fun i =>
          ((pending_same_cred s q.credentialId).getD i default).tradeNo)) := by
  have hemp : get_pending_orders s ≠ [] := by
    intro h
    apply hpne
    rw [pending_same_cred, h]
    rfl
  rw [check_payment_found_ok hfind, if_neg (by omega), if_neg (by omega),
    if_neg hemp, if_neg hpne, if_neg hdiff, hdfs]

theorem getD_map_toCents {P : List OrderRec} {i : ℕ} (hi : i < P.length) :
    (P.map fun o => toCents o.money).getD i 0 =
      toCents ((P.getD i default).money) := by
  rw [List.getD_eq_getElem _ _ (by simpa using hi), List.getElem_map,
    List.getD_eq_getElem _ _ hi]

/-- C1.  Reconciler soundness: when `check_payment` reaches the match branch —
the queried order is PENDING, the same-credential pending list `P` is
non-empty, the delta over the earliest sibling's `base_balance` is positive
and the subset-sum search returns the index list `idxs` — the marked orders
`S` (the rows of `P` selected by `idxs`) were all PENDING rows of the orders
table on the queried order's credential (`S ⊆ P`); each of them ends in the
result state with `status = 1` and `confirm_balance = b`; the sum in integer
cents of their `money` equals the cents of `b` minus the `base_balance` of
`P`'s head; and `P`'s head is the earliest-created order of `P`. -/
theorem checkPayment_soundness {s : DBState} {tn : String} {q : OrderRec}
    {b : ℚ} {idxs : List ℕ} (now : ℕ) (resps : ℕ → Option HttpResp)
    (hfind : s.orders.find? (fun o => o.tradeNo == tn) = some q)
    (hq0 : q.status = 0)
    (hpne : pending_same_cred s q.credentialId ≠ [])
    (hdiff : ¬ (b - ((pending_same_cred s q.credentialId).headD default).baseBalance ≤ 0))
    (hdfs : subset_sum_dfs
        ((pending_same_cred s q.credentialId).map fun o => toCents o.money)
        (toCents (b - ((pending_same_cred s q.credentialId).headD default).baseBalance))
      = some idxs) :
    (∀ o ∈ idxs.map (fun i => (pending_same_cred s q.credentialId).getD i default),
      o ∈ pending_same_cred s q.credentialId ∧
      o ∈ s.orders ∧ o.status = 0 ∧ o.credentialId = q.credentialId) ∧
    (∀ o ∈ idxs.map (fun i => (pending_same_cred s q.credentialId).getD i default),
      ∃ o', o' ∈ (check_payment s tn (.ok b) now resps).1.orders ∧
        o'.oid = o.oid ∧ o'.status = 1 ∧ o'.confirmBalance = some b) ∧
    ((idxs.map (fun i =>
        toCents (((pending_same_cred s q.credentialId).getD i default).money))).sum =
      toCents (b - ((pending_same_cred s q.credentialId).headD default).baseBalance)) ∧
    ((pending_same_cred s q.credentialId).headD default ∈
        pending_same_cred s q.credentialId ∧
      ∀ o ∈ pending_same_cred s q.credentialId,
        ((pending_same_cred s q.credentialId).headD default).createdAt ≤ o.createdAt) := by
  have hchoice := subset_sum_dfs_sound hdfs
  obtain ⟨hpw, hbound, hsum⟩ := choice_enum_elim hchoice
  have hbound' : ∀ i ∈ idxs, i < (pending_same_cred s q.credentialId).length := by
    intro i hi
    have := hbound i hi
    simpa using this
  have hmemP : ∀ i ∈ idxs,
      (pending_same_cred s q.credentialId).getD i default ∈
        pending_same_cred s q.credentialId := by
    intro i hi
    rw [List.getD_eq_getElem _ _ (hbound' i hi)]
    exact List.getElem_mem _
  refine ⟨?_, ?_, ?_, head_pending_earliest hpne⟩
  · intro o ho
    obtain ⟨i, hi, rfl⟩ := List.mem_map.mp ho
    have hP := hmemP i hi
    obtain ⟨h1, h2, h3⟩ := mem_pending_same_cred.mp hP
    exact ⟨hP, h1, h2, h3⟩
  · intro o ho
    obtain ⟨i, hi, rfl⟩ := List.mem_map.mp ho
    have hP := hmemP i hi
    obtain ⟨hmem, h0, hcred⟩ := mem_pending_same_cred.mp hP
    rw [check_payment_match_branch now resps hfind hq0 hpne hdiff hdfs]
    set o0 := (pending_same_cred s q.credentialId).getD i default with ho0
    set ids := idxs.map fun j =>
      ((pending_same_cred s q.credentialId).getD j default).oid with hids
    have hoid : o0.oid ∈ ids := by
      rw [hids]
      exact List.mem_map.mpr ⟨i, hi, rfl⟩
    have hidsne : ids ≠ [] := by
      rw [hids]
      intro hc
      rw [List.map_eq_nil] at hc
      rw [hc] at hi
      cases hi
    have hmarked :
        ({ o0 with
              status := 1, confirmBalance := some b, paidAt := some now }) ∈
          (mark_orders_paid s ids b now).orders := by
      rw [mark_orders_paid, if_neg hidsne]
      refine List.mem_map.mpr ⟨o0, hmem, ?_⟩
      rw [if_pos hoid]
    have hcore := trigger_callbacks_core
      (log_balance_query (mark_orders_paid s ids b now) b .matchSuccess
        (some (idxs.map fun j =>
          ((pending_same_cred s q.credentialId).getD j default).tradeNo)))
      ids resps
    rw [log_balance_query_orders] at hcore
    obtain ⟨o', ho', hc⟩ := ordersCore_exists_right hcore hmarked
    exact ⟨o', ho', hc.1, hc.2.2.2.2.2.1, hc.2.2.2.2.2.2.2.1⟩
  · rw [← hsum]
    apply congrArg
    apply List.map_congr_left
    intro i hi
    exact (getD_map_toCents (hbound' i hi)).symm

/-! ## C2: reconciler minimality -/

/-- C2.  Reconciler minimality: in the match branch, whenever some subset of
the same-credential pending orders' cent amounts sums exactly to the positive
delta (`Choice ... l0`), the search returns an index list `idxs`; `idxs` is
itself such a subset, it has the smallest cardinality among all of them, a
singleton solution forces `idxs` to have at most one element, ties between
equal-size solutions go to the first in depth-first visit order over the
pending orders sorted by ascending `created_at` (the lexicographically least
index list), and `check_payment` marks exactly the orders of `P` selected by
`idxs`.  The non-negativity hypothesis on the cent amounts reflects the
spec's §3 invariant that every order's `money` is at least `0.01`. -/
theorem checkPayment_minimality {s : DBState} {tn : String} {q : OrderRec}
    {b : ℚ} {l0 : List ℕ} (now : ℕ) (resps : ℕ → Option HttpResp)
    (hfind : s.orders.find? (fun o => o.tradeNo == tn) = some q)
    (hq0 : q.status = 0)
    (hpne : pending_same_cred s q.credentialId ≠ [])
    (hdiff : ¬ (b - ((pending_same_cred s q.credentialId).headD default).baseBalance ≤ 0))
    (hnn : ∀ o ∈ pending_same_cred s q.credentialId, 0 ≤ toCents o.money)
    (h0 : Choice ((pending_same_cred s q.credentialId).map fun o => toCents o.money).enum
        (toCents (b - ((pending_same_cred s q.credentialId).headD default).baseBalance))
        l0) :
    ∃ idxs,
      subset_sum_dfs
        ((pending_same_cred s q.credentialId).map fun o => toCents o.money)
        (toCents (b - ((pending_same_cred s q.credentialId).headD default).baseBalance))
        = some idxs ∧
      Choice ((pending_same_cred s q.credentialId).map fun o => toCents o.money).enum
        (toCents (b - ((pending_same_cred s q.credentialId).headD default).baseBalance))
        idxs ∧
      (∀ l, Choice
          ((pending_same_cred s q.credentialId).map fun o => toCents o.money).enum
          (toCents (b - ((pending_same_cred s q.credentialId).headD default).baseBalance))
          l →
        idxs.length ≤ l.length ∧ (l.length = idxs.length → lexLE idxs l)) ∧
      ((∃ l1, Choice
          ((pending_same_cred s q.credentialId).map fun o => toCents o.money).enum
          (toCents (b - ((pending_same_cred s q.credentialId).headD default).baseBalance))
          l1 ∧ l1.length = 1) → idxs.length ≤ 1) ∧
      check_payment s tn (.ok b) now resps =
        (trigger_callbacks
          (log_balance_query
            (mark_orders_paid s
              (idxs.map fun i =>
                ((pending_same_cred s q.credentialId).getD i default).oid) b now)
            b .matchSuccess
            (some (idxs.map fun i =>
              ((pending_same_cred s q.credentialId).getD i default).tradeNo)))
          (idxs.map fun i =>
            ((pending_same_cred s q.credentialId).getD i default).oid) resps,
          decide (tn ∈ idxs.map fun i =>
            ((pending_same_cred s q.credentialId).getD i default).tradeNo)) := by
  have hnn' : ∀ x ∈ (pending_same_cred s q.credentialId).map fun o => toCents o.money,
      0 ≤ x := by
    intro x hx
    obtain ⟨o, ho, rfl⟩ := List.mem_map.mp hx
    exact hnn o ho
  obtain ⟨m, hm, hc, hmin⟩ := subset_sum_dfs_min hnn' h0
  refine ⟨m, hm, hc, hmin, ?_, check_payment_match_branch now resps hfind hq0 hpne hdiff hm⟩
  rintro ⟨l1, hl1, hlen⟩
  have := (hmin l1 hl1).1
  omega

/-! ## A concrete reconciliation scenario -/

/-- One PENDING order of 10.00 on credential 1 with base balance 1000.00. -/
def cs1o : OrderRec := mkOrder 1 "T1" (some 1) 10 1000 0 0

/-- The state for the reconciliation witnesses. -/
def cs1 : DBState := ⟨[cs1o], [m1], [], []⟩

theorem cs1_find : cs1.orders.find? (fun o => o.tradeNo == "T1") = some cs1o := rfl

theorem cs1_pending : pending_same_cred cs1 cs1o.credentialId = [cs1o] := rfl

theorem cs1_tocents_money : toCents cs1o.money = 1000 := by
  show toCents (10 : ℚ) = 1000
  rw [show (10 : ℚ) = ((1000 : ℤ) : ℚ) / 100 by norm_num]
  exact toCents_twoDp 1000

theorem cs1_tocents_diff : toCents ((1010 : ℚ) - cs1o.baseBalance) = 1000 := by
  show toCents ((1010 : ℚ) - 1000) = 1000
  rw [show (1010 : ℚ) - 1000 = ((1000 : ℤ) : ℚ) / 100 by norm_num]
  exact toCents_twoDp 1000

theorem cs1_hdiff :
    ¬ ((1010 : ℚ) - ((pending_same_cred cs1 cs1o.credentialId).headD
        default).baseBalance ≤ 0) := by
  rw [cs1_pending]
  show ¬ ((1010 : ℚ) - 1000 ≤ 0)
  norm_num

theorem cs1_dfs :
    subset_sum_dfs
      ((pending_same_cred cs1 cs1o.credentialId).map fun o => toCents o.money)
      (toCents ((1010 : ℚ) - ((pending_same_cred cs1 cs1o.credentialId).headD
        default).baseBalance)) = some [0] := by
  rw [cs1_pending]
  show subset_sum_dfs [toCents cs1o.money] (toCents ((1010 : ℚ) - cs1o.baseBalance)) =
    some [0]
  rw [cs1_tocents_money, cs1_tocents_diff]
  decide

theorem cs1_choice :
    Choice ((pending_same_cred cs1 cs1o.credentialId).map fun o =>
        toCents o.money).enum
      (toCents ((1010 : ℚ) - ((pending_same_cred cs1 cs1o.credentialId).headD
        default).baseBalance)) [0] := by
  rw [cs1_pending]
  show Choice ([toCents cs1o.money]).enum (toCents ((1010 : ℚ) - cs1o.baseBalance)) [0]
  rw [cs1_tocents_money, cs1_tocents_diff]
  exact ⟨[(0, 1000)], List.Sublist.refl _, rfl, rfl⟩

/-- Witness for C1: in the concrete state `cs1` with observed balance 1010,
the matched index list is `[0]` and the cents of the marked orders sum to the
cents of the delta. -/
theorem checkPayment_soundness_witness :
    (([0] : List ℕ).map (fun i =>
        toCents (((pending_same_cred cs1 cs1o.credentialId).getD i default).money))).sum =
      toCents ((1010 : ℚ) - ((pending_same_cred cs1 cs1o.credentialId).headD
        default).baseBalance) :=
  (checkPayment_soundness 5 (fun _ => none) cs1_find rfl
    (by rw [cs1_pending]; exact List.cons_ne_nil _ _) cs1_hdiff cs1_dfs).2.2.1

/-- Witness for C2: in the concrete state `cs1` with observed balance 1010,
some index list is returned by the search and has minimal length among all
exact subset-sum solutions. -/
theorem checkPayment_minimality_witness :
    ∃ idxs,
      subset_sum_dfs
        ((pending_same_cred cs1 cs1o.credentialId).map fun o => toCents o.money)
        (toCents ((1010 : ℚ) - ((pending_same_cred cs1 cs1o.credentialId).headD
          default).baseBalance)) = some idxs ∧
      Choice ((pending_same_cred cs1 cs1o.credentialId).map fun o =>
          toCents o.money).enum
        (toCents ((1010 : ℚ) - ((pending_same_cred cs1 cs1o.credentialId).headD
          default).baseBalance)) idxs ∧
      (∀ l, Choice
          ((pending_same_cred cs1 cs1o.credentialId).map fun o => toCents o.money).enum
          (toCents ((1010 : ℚ) - ((pending_same_cred cs1 cs1o.credentialId).headD
            default).baseBalance)) l →
        idxs.length ≤ l.length ∧ (l.length = idxs.length → lexLE idxs l)) := by
  obtain ⟨idxs, h1, h2, h3, h4, h5⟩ :=
    checkPayment_minimality 5 (fun _ => none) cs1_find rfl
      (by rw [cs1_pending]; exact List.cons_ne_nil _ _) cs1_hdiff
      (by
        intro o ho
        rw [cs1_pending] at ho
        rcases List.mem_cons.mp ho with rfl | hc
        · rw [cs1_tocents_money]
          norm_num
        · cases hc)
      cs1_choice
  exact ⟨idxs, h1, h2, h3⟩

/-! ## Witnesses for the remaining claims -/

theorem reachable_ladderState1 : Reachable (ladderState 1) := by
  have h0 : Step initState (ladderState 0) := Step.merchantsAdmin initState [m1]
  have h1 : Step (ladderState 0) (ladderState 1) :=
    Step.create _ ladReq (some (some 1)) (some 0) (toString 1) 1 _ _
      (ladder_create 0 (by omega))
  exact Relation.ReflTransGen.head h0 (Relation.ReflTransGen.single h1)

/-- Witness for C3: the first ladder create on the merchant-only store
succeeds and yields the unadjusted amount 20.00. -/
theorem amount_adjustment_global_witness :
    create_order (ladderState 0) ladReq (some (some 1)) (some 0)
        (toString (0 + 1)) (0 + 1) =
      .ok (ladderState (0 + 1),
        createdRow (ladderState 0) ladReq (some 1) (some 0) (toString (0 + 1)) (0 + 1)
          (ladderMoney 0)) :=
  (amount_adjustment_global initState ladReq none none "T" 0).2.2.1 0 (by norm_num)

/-- Witness for C4: the per-credential PENDING money list of a reachable
state (here after one create) has no duplicates. -/
theorem amount_uniqueness_witness :
    (((ladderState 1).orders.filter fun o => o.status == 0 &&
        o.credentialId == (some 1 : Option ℕ)).map fun o => o.money).Nodup :=
  amount_uniqueness_per_credential reachable_ladderState1 (some 1)

/-- Witness for C5: the expiry sweep applied to the one-order reachable state
keeps every row with a monotone status change. -/
theorem monotone_status_witness :
    ∃ o' ∈ (expire_orders (ladderState 1) 10000).orders,
      o'.oid = (createdRow (ladderState 0) ladReq (some 1) (some 0)
        (toString (0 + 1)) (0 + 1) (ladderMoney 0)).oid ∧
      ((createdRow (ladderState 0) ladReq (some 1) (some 0)
          (toString (0 + 1)) (0 + 1) (ladderMoney 0)).status = 1 ∨
        (createdRow (ladderState 0) ladReq (some 1) (some 0)
          (toString (0 + 1)) (0 + 1) (ladderMoney 0)).status = 2 →
        o'.status = (createdRow (ladderState 0) ladReq (some 1) (some 0)
          (toString (0 + 1)) (0 + 1) (ladderMoney 0)).status) ∧
      (o'.status ≠ (createdRow (ladderState 0) ladReq (some 1) (some 0)
          (toString (0 + 1)) (0 + 1) (ladderMoney 0)).status →
        (createdRow (ladderState 0) ladReq (some 1) (some 0)
          (toString (0 + 1)) (0 + 1) (ladderMoney 0)).status = 0 ∧
        (o'.status = 1 ∨ o'.status = 2)) :=
  monotone_status reachable_ladderState1 (Step.expire (ladderState 1) 10000)
    (createdRow (ladderState 0) ladReq (some 1) (some 0)
      (toString (0 + 1)) (0 + 1) (ladderMoney 0))
    (by
      rw [show (ladderState 1).orders = [createdRow (ladderState 0) ladReq (some 1)
        (some 0) (toString (0 + 1)) (0 + 1) (ladderMoney 0)] from rfl]
      exact List.mem_cons_self _ _)

/-- Witness for C6: on a found order with a non-blank notify url, a response
with body `success` is reported as a successful notification. -/
theorem notify_success_criterion_witness :
    ((send_notify c6state 1 (some ⟨200, "success"⟩)).2 = true ↔
      ∃ r, (some (⟨200, "success"⟩ : HttpResp)) = some r ∧ pyStrip r.body = "success") := by
  have hfind : c6state.orders.find? (fun x => x.oid == 1) = some c6o := rfl
  have hm : c6state.merchants.find? (fun x => x.mid == c6o.merchantId) = some m1 := rfl
  have hurl : urlBlank c6o.notifyUrl = false := rfl
  exact (notify_success_criterion (some ⟨200, "success"⟩) 1 hfind hm hurl).1

/-- Witness for C9: an unknown trade number leaves the empty store unchanged
and returns false. -/
theorem checkPayment_nonmatching_witness :
    check_payment initState "TX" (.ok 0) 0 (fun _ => none) = (initState, false) :=
  (checkPayment_nonmatching_paths initState "TX" 0 (fun _ => none) (.ok 0)).1 rfl

/-- Witness for C10: the credential-blind scan shifts a 20.00 order on
credential 2 to 20.01 when credential 1 already holds a PENDING 20.00. -/
theorem occupied_scan_witness :
    (create_order c10state c10req (some (some 2)) (some 0) "T2" 5).map
      (fun r => (r.2.money, r.2.credentialId)) = .ok (2001/100, some 2) :=
  (occupied_scan_ignores_credential (Relation.ReflTransGen.refl)).2.2
